import Mathlib

/-!
Shallow embedding of the rlox lexical scanner (src/scanner.rs, src/lexer/token.rs,
src/error.rs) and proofs about its specification.

The Rust scanner indexes the raw bytes of its source string
(`self.source.as_bytes()[i] as char`), so a source text is embedded as a
`List Char` whose characters stand for single bytes (code points 0–255, the
image of `u8 as char`).  Character classification mirrors Rust's
`char::is_digit(10)`, `char::is_alphabetic` and `char::is_alphanumeric`
restricted to that byte range (the Unicode `Alphabetic` and `Numeric`
properties on U+0000–U+00FF).

Loops are embedded with an explicit fuel parameter; `none` means the fuel ran
out.  Fuel sufficiency (the scanner terminates within `length + 1` steps) is
proved below, so the fueled functions are total on all real runs.
-/

namespace Rlox

/-- Rust `char::is_digit(10)`: an ASCII decimal digit. -/
def is_digit (c : Char) : Bool :=
  decide (48 ≤ c.toNat ∧ c.toNat ≤ 57)

/-- Rust `char::is_alphabetic` restricted to the byte range the scanner can
produce: the Unicode `Alphabetic` code points among U+0000–U+00FF. -/
def is_alphabetic (c : Char) : Bool :=
  decide ((65 ≤ c.toNat ∧ c.toNat ≤ 90) ∨ (97 ≤ c.toNat ∧ c.toNat ≤ 122) ∨
    c.toNat = 0xAA ∨ c.toNat = 0xB5 ∨ c.toNat = 0xBA ∨
    (0xC0 ≤ c.toNat ∧ c.toNat ≤ 0xD6) ∨ (0xD8 ≤ c.toNat ∧ c.toNat ≤ 0xF6) ∨
    (0xF8 ≤ c.toNat ∧ c.toNat ≤ 0xFF))

/-- Rust `char::is_numeric` restricted to bytes: the Unicode `Numeric`
code points among U+0000–U+00FF (digits and ² ³ ¹ ¼ ½ ¾). -/
def is_numeric (c : Char) : Bool :=
  decide ((48 ≤ c.toNat ∧ c.toNat ≤ 57) ∨ c.toNat = 0xB2 ∨ c.toNat = 0xB3 ∨
    c.toNat = 0xB9 ∨ c.toNat = 0xBC ∨ c.toNat = 0xBD ∨ c.toNat = 0xBE)

/-- Rust `char::is_alphanumeric` = `is_alphabetic || is_numeric`. -/
def is_alphanumeric (c : Char) : Bool :=
  is_alphabetic c || is_numeric c

/-- src/error.rs: the three lexical error kinds of `LoxError`. -/
inductive LoxError where
  | InvalidToken (line : Nat) (token : List Char)
  | UnterminatedString (line : Nat)
  | UnterminatedFloat (line : Nat)
deriving DecidableEq, Repr

deriving instance DecidableEq for Except

/-- src/lexer/token.rs: the closed `TokenType` enumeration. -/
inductive TokenType where
  | LeftParen | RightParen | LeftBrace | RightBrace | Comma | Dot | Minus
  | Plus | Semicolon | Slash | Star
  | Bang | BangEqual | Equal | EqualEqual | Greater | GreaterEqual | Less
  | LessEqual
  | Identifier | String | Number
  | And | Class | Else | False | Fun | For | If | Nil | Or | Print | Return
  | Super | This | True | Var | While
  | Eof
deriving DecidableEq, Repr

/-- The exact-match table generated by strum's `EnumString` derive on
`TokenType` (src/lexer/token.rs lines 4–89): every `#[strum(serialize = ...)]`
spelling, plus the bare variant names for `Identifier`, `String` and `Number`,
which carry no `serialize` attribute and therefore match their own variant
name under strum's default rule. -/
def token_table : List (List Char × TokenType) :=
  [("(".toList, TokenType.LeftParen), (")".toList, TokenType.RightParen),
   ("\x7b".toList, TokenType.LeftBrace), ("\x7d".toList, TokenType.RightBrace),
   (",".toList, TokenType.Comma), (".".toList, TokenType.Dot),
   ("-".toList, TokenType.Minus), ("+".toList, TokenType.Plus),
   (";".toList, TokenType.Semicolon), ("/".toList, TokenType.Slash),
   ("*".toList, TokenType.Star),
   ("!".toList, TokenType.Bang), ("!=".toList, TokenType.BangEqual),
   ("=".toList, TokenType.Equal), ("==".toList, TokenType.EqualEqual),
   (">".toList, TokenType.Greater), (">=".toList, TokenType.GreaterEqual),
   ("<".toList, TokenType.Less), ("<=".toList, TokenType.LessEqual),
   ("Identifier".toList, TokenType.Identifier),
   ("String".toList, TokenType.String), ("Number".toList, TokenType.Number),
   ("and".toList, TokenType.And), ("class".toList, TokenType.Class),
   ("else".toList, TokenType.Else), ("false".toList, TokenType.False),
   ("fun".toList, TokenType.Fun), ("for".toList, TokenType.For),
   ("if".toList, TokenType.If), ("nil".toList, TokenType.Nil),
   ("or".toList, TokenType.Or), ("print".toList, TokenType.Print),
   ("return".toList, TokenType.Return), ("super".toList, TokenType.Super),
   ("this".toList, TokenType.This), ("true".toList, TokenType.True),
   ("var".toList, TokenType.Var), ("while".toList, TokenType.While),
   ("EOF".toList, TokenType.Eof)]

/-- `TokenType::from_str` as generated by strum: exact-match lookup. -/
def TokenType.from_str (lexeme : List Char) : Option TokenType :=
  (token_table.find? (fun p => p.1 == lexeme)).map Prod.snd

/-- src/lexer/token.rs: the `Token` record. -/
structure Token where
  type_ : TokenType
  lexeme : List Char
  line : Nat
deriving DecidableEq, Repr

/-- `Token::new` (src/lexer/token.rs lines 109–115). -/
def Token.new (type_ : TokenType) (lexeme : List Char) (line : Nat) : Token :=
  ⟨type_, lexeme, line⟩

/-- `Token::build` (src/lexer/token.rs lines 117–128): `TokenType::from_str`
on the lexeme, failing with `InvalidToken` when no spelling matches. -/
def Token.build (lexeme : List Char) (line : Nat) : Except LoxError Token :=
  match TokenType.from_str lexeme with
  | some type_ => Except.ok (Token.new type_ lexeme line)
  | none => Except.error (LoxError.InvalidToken line lexeme)

/-- Modelled from the spec: the shared string-slicing helper
`crate::utils::substring` (its file src/utils.rs is not part of the sources
given).  Per the spec's glossary a lexeme is "the exact substring of source
text", and every call site passes byte positions `start` and `end`, so
`substring source a b` is the slice of `source` from index `a` (inclusive)
to index `b` (exclusive). -/
def substring (source : List Char) (a b : Nat) : List Char :=
  (source.take b).drop a

/-- Number of newline bytes in a slice (used to state line-number facts). -/
def countNL (l : List Char) : Nat :=
  l.count '\n'

/-- src/scanner.rs lines 5–10: the scanner's cursor state. -/
structure Scanner where
  source : List Char
  start : Nat
  current : Nat
  line : Nat
deriving DecidableEq, Repr

/-- `Scanner::new` (src/scanner.rs lines 24–28, via `Default`):
`start = current = 0`, `line = 1`. -/
def Scanner.new (source : List Char) : Scanner :=
  ⟨source, 0, 0, 1⟩

/-- `Scanner::source_at` (src/scanner.rs lines 125–127): byte at index `i`.
The default is never reached on the runs the Rust code performs (it indexes
only in-bounds positions). -/
def source_at (s : Scanner) (i : Nat) : Char :=
  s.source.getD i '\x00'

/-- `Scanner::is_at_end` (src/scanner.rs lines 129–131). -/
def is_at_end (s : Scanner) : Bool :=
  decide (s.source.length ≤ s.current)

/-- `Scanner::peek` (src/scanner.rs lines 94–100): NUL sentinel at end. -/
def peek (s : Scanner) : Char :=
  if is_at_end s then '\x00' else source_at s s.current

/-- `Scanner::peek_next` (src/scanner.rs lines 102–108): fails with
`UnterminatedFloat` when no character exists one past `current`. -/
def peek_next (s : Scanner) : Except LoxError Char :=
  if s.source.length ≤ s.current + 1 then
    Except.error (LoxError.UnterminatedFloat s.line)
  else Except.ok (source_at s (s.current + 1))

/-- `Scanner::pop` (src/scanner.rs lines 111–114): consume one character. -/
def pop (s : Scanner) : Char × Scanner :=
  (source_at s s.current, { s with current := s.current + 1 })

/-- `Scanner::pop_if_exp_is_next` (src/scanner.rs lines 117–123). -/
def pop_if_exp_is_next (s : Scanner) (exp : Char) : Option Char × Scanner :=
  if is_at_end s ∨ source_at s s.current ≠ exp then (none, s)
  else (some exp, { s with current := s.current + 1 })

/-- The comment-skipping loop of `scan_token` (src/scanner.rs lines 57–59):
`while self.peek() != '\n' && !self.is_at_end() { self.pop(); }`.
`none` means the fuel ran out. -/
def skip_comment : Nat → Scanner → Option Scanner
  | 0, _ => none
  | fuel + 1, s =>
    if peek s ≠ '\n' ∧ is_at_end s = false then
      skip_comment fuel { s with current := s.current + 1 }
    else some s

/-- `Scanner::parse_string` (src/scanner.rs lines 133–151): consume up to and
including the closing quote, counting newlines, and return the lexeme with
both quotes stripped; `UnterminatedString` at end of input. -/
def parse_string : Nat → Scanner → Option (Except LoxError (List Char × Scanner))
  | 0, _ => none
  | fuel + 1, s =>
    if peek s ≠ '"' then
      if is_at_end s then
        some (Except.error (LoxError.UnterminatedString s.line))
      else
        parse_string fuel
          { s with
            line := if peek s = '\n' then s.line + 1 else s.line,
            current := s.current + 1 }
    else
      some (Except.ok
        (substring s.source (s.start + 1) (s.current + 1 - 1),
         { s with current := s.current + 1 }))

/-- The digit-consuming loop of `parse_number` (src/scanner.rs lines 154–156
and 159–161): `while self.peek().is_digit(10) { self.pop(); }`. -/
def skip_digits : Nat → Scanner → Option Scanner
  | 0, _ => none
  | fuel + 1, s =>
    if is_digit (peek s) then skip_digits fuel { s with current := s.current + 1 }
    else some s

/-- `Scanner::parse_number` (src/scanner.rs lines 153–164): digits, then a
fractional part only if a `.` is followed by a digit; `peek_next` may fail
with `UnterminatedFloat`. -/
def parse_number (fuel : Nat) (s : Scanner) :
    Option (Except LoxError (List Char × Scanner)) :=
  match skip_digits fuel s with
  | none => none
  | some s1 =>
    if peek s1 = '.' then
      match peek_next s1 with
      | Except.error e => some (Except.error e)
      | Except.ok c2 =>
        if is_digit c2 then
          match skip_digits fuel { s1 with current := s1.current + 1 } with
          | none => none
          | some s2 =>
            some (Except.ok (substring s2.source s2.start s2.current, s2))
        else some (Except.ok (substring s1.source s1.start s1.current, s1))
    else some (Except.ok (substring s1.source s1.start s1.current, s1))

/-- `Scanner::parse_identifier` (src/scanner.rs lines 166–171):
`while self.peek().is_alphanumeric() { self.pop(); }` then the slice. -/
def parse_identifier : Nat → Scanner → Option (Except LoxError (List Char × Scanner))
  | 0, _ => none
  | fuel + 1, s =>
    if is_alphanumeric (peek s) then
      parse_identifier fuel { s with current := s.current + 1 }
    else some (Except.ok (substring s.source s.start s.current, s))

/-- `Scanner::scan_token` (src/scanner.rs lines 42–91): consume one character
and dispatch.  Produces `none` on fuel exhaustion, otherwise `some` of either
the first error or an optional token (insignificant input produces no token)
together with the updated cursor. -/
def scan_token (fuel : Nat) (s0 : Scanner) :
    Option (Except LoxError (Option Token × Scanner)) :=
  let c := source_at s0 s0.current
  let s : Scanner := { s0 with current := s0.current + 1 }
  if c = '(' ∨ c = ')' ∨ c = '\x7b' ∨ c = '\x7d' ∨ c = ',' ∨ c = '.' ∨
     c = '-' ∨ c = '+' ∨ c = ';' ∨ c = '*' then
    some ((Token.build [c] s.line).map (fun t => (some t, s)))
  else if c = '!' ∨ c = '=' ∨ c = '<' ∨ c = '>' then
    match pop_if_exp_is_next s '=' with
    | (some next_c, s1) =>
      some ((Token.build [c, next_c] s1.line).map (fun t => (some t, s1)))
    | (none, s1) =>
      some ((Token.build [c] s1.line).map (fun t => (some t, s1)))
  else if c = '/' then
    match pop_if_exp_is_next s '/' with
    | (some _, s1) =>
      (skip_comment fuel s1).map (fun s2 => Except.ok (none, s2))
    | (none, s1) =>
      some ((Token.build [c] s1.line).map (fun t => (some t, s1)))
  else if c = ' ' ∨ c = '\x0d' ∨ c = '\t' then
    some (Except.ok (none, s))
  else if c = '\n' then
    some (Except.ok (none, { s with line := s.line + 1 }))
  else if c = '"' then
    (parse_string fuel s).map (fun r =>
      r.map (fun p => (some (Token.new TokenType.String p.1 p.2.line), p.2)))
  else if is_digit c then
    (parse_number fuel s).map (fun r =>
      r.map (fun p => (some (Token.new TokenType.Number p.1 p.2.line), p.2)))
  else if is_alphabetic c then
    (parse_identifier fuel s).map (fun r =>
      r.bind (fun p => (Token.build p.1 p.2.line).map (fun t => (some t, p.2))))
  else
    some (Except.error (LoxError.InvalidToken s.line [c]))

/-- The loop of `Scanner::scan_tokens` (src/scanner.rs lines 30–40): while not
at end, reset `start := current` and scan one token; at the end append the
single end-of-input token stamped with the final line. -/
def scan_tokens_go : Nat → Scanner → Option (Except LoxError (List Token × Scanner))
  | 0, _ => none
  | fuel + 1, s =>
    if is_at_end s then
      some (Except.ok ([Token.new TokenType.Eof [] s.line], s))
    else
      match scan_token fuel { s with start := s.current } with
      | none => none
      | some (Except.error e) => some (Except.error e)
      | some (Except.ok (opt, s1)) =>
        match scan_tokens_go fuel s1 with
        | none => none
        | some (Except.error e) => some (Except.error e)
        | some (Except.ok (ts, s2)) => some (Except.ok (opt.toList ++ ts, s2))

/-- `Scanner::scan_tokens` (src/scanner.rs lines 30–40).  The fuel
`length + 1` is proved sufficient below (`c9_scan_terminates`), so the
`Option` layer never yields `none` on a real run. -/
def scan_tokens (s : Scanner) : Option (Except LoxError (List Token × Scanner)) :=
  scan_tokens_go (s.source.length + 1) s

/-- `scan_tokens_go` instrumented to record, for each produced token, the
cursor positions at which its scan started and finished.  It mirrors the loop
verbatim and projects back to `scan_tokens_go` (`scan_tokens_spans_proj`). -/
def scan_tokens_spans_go : Nat → Scanner →
    Option (Except LoxError (List (Token × Nat × Nat) × Scanner))
  | 0, _ => none
  | fuel + 1, s =>
    if is_at_end s then
      some (Except.ok ([(Token.new TokenType.Eof [] s.line, s.current, s.current)], s))
    else
      match scan_token fuel { s with start := s.current } with
      | none => none
      | some (Except.error e) => some (Except.error e)
      | some (Except.ok (opt, s1)) =>
        match scan_tokens_spans_go fuel s1 with
        | none => none
        | some (Except.error e) => some (Except.error e)
        | some (Except.ok (ts, s2)) =>
          some (Except.ok ((opt.map (fun t => (t, s.current, s1.current))).toList ++ ts, s2))

/-- Span-instrumented `scan_tokens`. -/
def scan_tokens_spans (s : Scanner) :
    Option (Except LoxError (List (Token × Nat × Nat) × Scanner)) :=
  scan_tokens_spans_go (s.source.length + 1) s

/-- The per-input content of claim C3 as stated: every produced token's line
equals 1 plus the number of newlines strictly before the position at which
the token's scan started (its first character). -/
def c3_start_line_check (src : List Char) : Bool :=
  match scan_tokens_spans (Scanner.new src) with
  | some (Except.ok (tps, _)) =>
    tps.all (fun p => p.1.line == 1 + countNL (substring src 0 p.2.1))
  | _ => true

/-- One iteration of the `scan_tokens` loop as a relation between cursor
states: `start` is reset to `current` and `scan_token` succeeds. -/
def ScanStep (s s' : Scanner) : Prop :=
  is_at_end s = false ∧
  ∃ fuel opt, scan_token fuel { s with start := s.current } =
    some (Except.ok (opt, s'))

/-- Cursor states reachable from a given state by loop iterations. -/
def Reaches (s s' : Scanner) : Prop :=
  Relation.ReflTransGen ScanStep s s'

/-- The line-number invariant maintained by the scanner: `line` is 1 plus the
number of newline bytes strictly before `current`. -/
def line_inv (s : Scanner) : Prop :=
  s.line = 1 + countNL (substring s.source 0 s.current)

/-- The sixteen reserved-word spellings (spec §3). -/
def reserved_words : List (List Char) :=
  ["and".toList, "class".toList, "else".toList, "false".toList, "fun".toList,
   "for".toList, "if".toList, "nil".toList, "or".toList, "print".toList,
   "return".toList, "super".toList, "this".toList, "true".toList,
   "var".toList, "while".toList]

/-- The thirty-six canonical fixed spellings enumerated by claim C2: eleven
single-character punctuation spellings, eight operator spellings, the sixteen
reserved words, and the sentinel spelling "EOF". -/
def fixed_spellings : List (List Char) :=
  ["(".toList, ")".toList, "\x7b".toList, "\x7d".toList, ",".toList,
   ".".toList, "-".toList, "+".toList, ";".toList, "/".toList, "*".toList] ++
  ["!".toList, "!=".toList, "=".toList, "==".toList, ">".toList,
   ">=".toList, "<".toList, "<=".toList] ++
  reserved_words ++ ["EOF".toList]

/-- The three bare variant names that `TokenType::from_str` additionally
accepts because their variants carry no `#[strum(serialize = ...)]`
attribute. -/
def literal_variant_names : List (List Char) :=
  ["Identifier".toList, "String".toList, "Number".toList]

/-! ### Generic list and slice lemmas -/

theorem substring_drop_take (l : List Char) (a b : Nat) :
    substring l a b = (l.drop a).take (b - a) :=
  List.drop_take b a l

theorem substring_self (l : List Char) (a : Nat) : substring l a a = [] := by
  simp [substring_drop_take]

theorem substring_cons (l : List Char) (a b : Nat) (h1 : a < b) (h2 : a < l.length) :
    substring l a b = l.getD a '\x00' :: substring l (a + 1) b := by
  rw [substring_drop_take, substring_drop_take, List.drop_eq_getElem_cons h2,
    List.getD_eq_getElem l '\x00' h2]
  have hb : b - a = (b - (a + 1)) + 1 := by omega
  rw [hb, List.take_succ_cons]

theorem substring_split (l : List Char) (a b c : Nat) (h1 : a ≤ b) (h2 : b ≤ c) :
    substring l a c = substring l a b ++ substring l b c := by
  rw [substring_drop_take, substring_drop_take, substring_drop_take]
  have hc : c - a = (b - a) + (c - b) := by omega
  rw [hc, List.take_add, List.drop_drop]
  have hb : a + (b - a) = b := by omega
  rw [hb]

theorem substring_zero_length (l : List Char) : substring l 0 l.length = l := by
  simp [substring]

theorem countNL_nil : countNL [] = 0 := rfl

theorem countNL_cons (c : Char) (l : List Char) :
    countNL (c :: l) = countNL l + if c = '\n' then 1 else 0 := by
  simp [countNL, List.count_cons]

theorem countNL_append (l1 l2 : List Char) :
    countNL (l1 ++ l2) = countNL l1 + countNL l2 :=
  List.count_append '\n' l1 l2

theorem countNL_substring_split (l : List Char) (a b c : Nat)
    (h1 : a ≤ b) (h2 : b ≤ c) :
    countNL (substring l a c) = countNL (substring l a b) + countNL (substring l b c) := by
  rw [substring_split l a b c h1 h2, countNL_append]

theorem takeWhile_length_le (p : Char → Bool) :
    ∀ l : List Char, (l.takeWhile p).length ≤ l.length := by
  intro l
  induction l with
  | nil => simp
  | cons x xs ih =>
    cases hx : p x
    · simp [List.takeWhile_cons, hx]
    · simp only [List.takeWhile_cons, hx, if_true, List.length_cons]
      omega

theorem takeWhile_length_lt_iff (p : Char → Bool) :
    ∀ l : List Char, (l.takeWhile p).length < l.length ↔ ∃ x ∈ l, p x = false := by
  intro l
  induction l with
  | nil => simp
  | cons x xs ih =>
    cases hx : p x
    · simp only [List.takeWhile_cons, hx, Bool.false_eq_true, if_false,
        List.length_nil, List.length_cons, List.mem_cons]
      constructor
      · intro _; exact ⟨x, Or.inl rfl, hx⟩
      · intro _; omega
    · simp only [List.takeWhile_cons, hx, if_true, List.length_cons, List.mem_cons]
      constructor
      · intro h
        obtain ⟨y, hy, hpy⟩ := ih.mp (by omega)
        exact ⟨y, Or.inr hy, hpy⟩
      · rintro ⟨y, hy | hy, hpy⟩
        · subst hy; rw [hx] at hpy; exact Bool.noConfusion hpy
        · have := ih.mpr ⟨y, hy, hpy⟩; omega

theorem takeWhile_stop_getD (p : Char → Bool) :
    ∀ l : List Char, (l.takeWhile p).length < l.length →
      p (l.getD (l.takeWhile p).length '\x00') = false := by
  intro l
  induction l with
  | nil => simp
  | cons x xs ih =>
    intro h
    cases hx : p x
    · simp only [List.takeWhile_cons, hx, Bool.false_eq_true, if_false,
        List.length_nil, List.getD_cons_zero]
    · simp only [List.takeWhile_cons, hx, if_true, List.length_cons] at h ⊢
      simp only [List.getD_cons_succ]
      exact ih (by omega)

/-! ### Character-class facts used to resolve `scan_token`'s dispatch -/

theorem digit_not_punct (c : Char) (h : is_digit c = true) :
    ¬(c = '(' ∨ c = ')' ∨ c = '\x7b' ∨ c = '\x7d' ∨ c = ',' ∨ c = '.' ∨
      c = '-' ∨ c = '+' ∨ c = ';' ∨ c = '*') := by
  rintro (rfl | rfl | rfl | rfl | rfl | rfl | rfl | rfl | rfl | rfl) <;>
    exact absurd h (by decide)

theorem digit_not_op (c : Char) (h : is_digit c = true) :
    ¬(c = '!' ∨ c = '=' ∨ c = '<' ∨ c = '>') := by
  rintro (rfl | rfl | rfl | rfl) <;> exact absurd h (by decide)

theorem digit_not_slash (c : Char) (h : is_digit c = true) : ¬(c = '/') := by
  rintro rfl; exact absurd h (by decide)

theorem digit_not_ws (c : Char) (h : is_digit c = true) :
    ¬(c = ' ' ∨ c = '\x0d' ∨ c = '\t') := by
  rintro (rfl | rfl | rfl) <;> exact absurd h (by decide)

theorem digit_not_nl (c : Char) (h : is_digit c = true) : ¬(c = '\n') := by
  rintro rfl; exact absurd h (by decide)

theorem digit_not_quote (c : Char) (h : is_digit c = true) : ¬(c = '"') := by
  rintro rfl; exact absurd h (by decide)

theorem alpha_not_punct (c : Char) (h : is_alphabetic c = true) :
    ¬(c = '(' ∨ c = ')' ∨ c = '\x7b' ∨ c = '\x7d' ∨ c = ',' ∨ c = '.' ∨
      c = '-' ∨ c = '+' ∨ c = ';' ∨ c = '*') := by
  rintro (rfl | rfl | rfl | rfl | rfl | rfl | rfl | rfl | rfl | rfl) <;>
    exact absurd h (by decide)

theorem alpha_not_op (c : Char) (h : is_alphabetic c = true) :
    ¬(c = '!' ∨ c = '=' ∨ c = '<' ∨ c = '>') := by
  rintro (rfl | rfl | rfl | rfl) <;> exact absurd h (by decide)

theorem alpha_not_slash (c : Char) (h : is_alphabetic c = true) : ¬(c = '/') := by
  rintro rfl; exact absurd h (by decide)

theorem alpha_not_ws (c : Char) (h : is_alphabetic c = true) :
    ¬(c = ' ' ∨ c = '\x0d' ∨ c = '\t') := by
  rintro (rfl | rfl | rfl) <;> exact absurd h (by decide)

theorem alpha_not_nl (c : Char) (h : is_alphabetic c = true) : ¬(c = '\n') := by
  rintro rfl; exact absurd h (by decide)

theorem alpha_not_quote (c : Char) (h : is_alphabetic c = true) : ¬(c = '"') := by
  rintro rfl; exact absurd h (by decide)

theorem alpha_not_digit (c : Char) (h : is_alphabetic c = true) :
    is_digit c = false := by
  simp only [is_alphabetic, decide_eq_true_eq] at h
  simp only [is_digit, decide_eq_false_iff_not]
  omega

theorem alnum_not_nl (c : Char) (h : is_alphanumeric c = true) : ¬(c = '\n') := by
  rintro rfl; exact absurd h (by decide)

/-! ### Basic cursor lemmas -/

theorem at_end_false_of_lt {s : Scanner} (h : s.current < s.source.length) :
    is_at_end s = false := by
  simp [is_at_end]; omega

theorem peek_of_lt {s : Scanner} (h : s.current < s.source.length) :
    peek s = s.source.getD s.current '\x00' := by
  rw [peek, at_end_false_of_lt h]
  simp [source_at]

theorem peek_of_ge {s : Scanner} (h : s.source.length ≤ s.current) :
    peek s = '\x00' := by
  rw [peek, if_pos]
  simp [is_at_end]; omega

theorem current_lt_of_peek {s : Scanner} {p : Char → Bool}
    (hp : p (peek s) = true) (h0 : p '\x00' = false) :
    s.current < s.source.length := by
  by_contra hc
  rw [peek_of_ge (by omega), h0] at hp
  exact Bool.noConfusion hp

/-! ### Specification bundles for the scanning loops: on success each loop
preserves the source, `start` and (except inside strings) `line`, moves
`current` forward without passing the end, and accounts for every newline it
consumes. -/

theorem skip_comment_spec (fuel : Nat) : ∀ s s' : Scanner,
    skip_comment fuel s = some s' →
    s'.source = s.source ∧ s'.start = s.start ∧ s'.line = s.line ∧
    s.current ≤ s'.current ∧
    (s.current ≤ s.source.length → s'.current ≤ s.source.length) ∧
    countNL (substring s.source s.current s'.current) = 0 := by
  induction fuel with
  | zero => intro s s' h; simp [skip_comment] at h
  | succ fuel ih =>
    intro s s' h
    simp only [skip_comment] at h
    by_cases hc : peek s ≠ '\n' ∧ is_at_end s = false
    · rw [if_pos hc] at h
      obtain ⟨hpk, hend⟩ := hc
      have hlt : s.current < s.source.length := by
        simp only [is_at_end, decide_eq_false_iff_not, not_le] at hend
        exact hend
      obtain ⟨h1, h2, h3, h4, h5, h6⟩ := ih _ _ h
      dsimp only at h1 h2 h3 h4 h5 h6
      refine ⟨h1, h2, h3, by omega, fun _ => h5 (by omega), ?_⟩
      rw [substring_cons s.source s.current s'.current (by omega) hlt, countNL_cons,
        (peek_of_lt hlt).symm, if_neg hpk, h6]
    · rw [if_neg hc] at h
      have hs : s' = s := by injection h with h'; exact h'.symm
      subst hs
      exact ⟨rfl, rfl, rfl, le_refl _, fun h => h, by rw [substring_self]; rfl⟩

theorem skip_digits_spec (fuel : Nat) : ∀ s s' : Scanner,
    skip_digits fuel s = some s' →
    s'.source = s.source ∧ s'.start = s.start ∧ s'.line = s.line ∧
    s.current ≤ s'.current ∧
    (s.current ≤ s.source.length → s'.current ≤ s.source.length) ∧
    countNL (substring s.source s.current s'.current) = 0 := by
  induction fuel with
  | zero => intro s s' h; simp [skip_digits] at h
  | succ fuel ih =>
    intro s s' h
    simp only [skip_digits] at h
    cases hd : is_digit (peek s)
    · rw [hd] at h
      simp only [Bool.false_eq_true, if_false, Option.some.injEq] at h
      subst h
      exact ⟨rfl, rfl, rfl, le_refl _, fun h => h, by rw [substring_self]; rfl⟩
    · rw [hd] at h
      simp only [if_true] at h
      have hlt : s.current < s.source.length :=
        current_lt_of_peek hd (by decide)
      obtain ⟨h1, h2, h3, h4, h5, h6⟩ := ih _ _ h
      dsimp only at h1 h2 h3 h4 h5 h6
      refine ⟨h1, h2, h3, by omega, fun _ => h5 (by omega), ?_⟩
      rw [substring_cons s.source s.current s'.current (by omega) hlt, countNL_cons,
        (peek_of_lt hlt).symm, if_neg (digit_not_nl _ hd), h6]

theorem parse_identifier_spec (fuel : Nat) : ∀ (s : Scanner) lex (s' : Scanner),
    parse_identifier fuel s = some (Except.ok (lex, s')) →
    s'.source = s.source ∧ s'.start = s.start ∧ s'.line = s.line ∧
    s.current ≤ s'.current ∧
    (s.current ≤ s.source.length → s'.current ≤ s.source.length) ∧
    countNL (substring s.source s.current s'.current) = 0 := by
  induction fuel with
  | zero => intro s lex s' h; simp [parse_identifier] at h
  | succ fuel ih =>
    intro s lex s' h
    simp only [parse_identifier] at h
    cases hd : is_alphanumeric (peek s)
    · rw [hd] at h
      simp only [Bool.false_eq_true, if_false, Option.some.injEq, Except.ok.injEq,
        Prod.mk.injEq] at h
      obtain ⟨-, hs⟩ := h
      subst hs
      exact ⟨rfl, rfl, rfl, le_refl _, fun h => h, by rw [substring_self]; rfl⟩
    · rw [hd] at h
      simp only [if_true] at h
      have hlt : s.current < s.source.length :=
        current_lt_of_peek hd (by decide)
      obtain ⟨h1, h2, h3, h4, h5, h6⟩ := ih _ _ _ h
      dsimp only at h1 h2 h3 h4 h5 h6
      refine ⟨h1, h2, h3, by omega, fun _ => h5 (by omega), ?_⟩
      rw [substring_cons s.source s.current s'.current (by omega) hlt, countNL_cons,
        (peek_of_lt hlt).symm, if_neg (alnum_not_nl _ hd), h6]

theorem parse_string_spec (fuel : Nat) : ∀ (s : Scanner) lex (s' : Scanner),
    parse_string fuel s = some (Except.ok (lex, s')) →
    s'.source = s.source ∧ s'.start = s.start ∧ s.current < s'.current ∧
    s'.current ≤ s.source.length ∧
    s'.line = s.line + countNL (substring s.source s.current s'.current) := by
  induction fuel with
  | zero => intro s lex s' h; simp [parse_string] at h
  | succ fuel ih =>
    intro s lex s' h
    simp only [parse_string] at h
    by_cases hq : peek s ≠ '"'
    · rw [if_pos hq] at h
      by_cases hend : is_at_end s = true
      · rw [if_pos hend] at h
        exact absurd h (by simp)
      · rw [if_neg hend] at h
        have hlt : s.current < s.source.length := by
          simp only [is_at_end, decide_eq_true_eq, Bool.not_eq_true] at hend
          omega
        obtain ⟨h1, h2, h3, h4, h5⟩ := ih _ _ _ h
        dsimp only at h1 h2 h3 h4 h5
        refine ⟨h1, h2, by omega, h4, ?_⟩
        rw [substring_cons s.source s.current s'.current (by omega) hlt, countNL_cons,
          (peek_of_lt hlt).symm, h5]
        by_cases hnl : peek s = '\n'
        · rw [if_pos hnl, if_pos hnl]; omega
        · rw [if_neg hnl, if_neg hnl]; omega
    · rw [if_neg hq] at h
      have hpq : peek s = '"' := not_not.mp hq
      have hlt : s.current < s.source.length := by
        by_contra hc
        rw [peek_of_ge (by omega)] at hpq
        exact absurd hpq (by decide)
      simp only [Option.some.injEq, Except.ok.injEq, Prod.mk.injEq] at h
      obtain ⟨-, hs⟩ := h
      subst hs
      refine ⟨rfl, rfl, by dsimp only; omega, by dsimp only; omega, ?_⟩
      dsimp only
      rw [substring_cons s.source s.current (s.current + 1) (by omega) hlt,
        substring_self, countNL_cons, (peek_of_lt hlt).symm, hpq]
      simp [countNL_nil]

theorem peek_next_ok {s : Scanner} {c2 : Char}
    (h : peek_next s = Except.ok c2) :
    s.current + 1 < s.source.length ∧ c2 = s.source.getD (s.current + 1) '\x00' := by
  rw [peek_next] at h
  by_cases hle : s.source.length ≤ s.current + 1
  · rw [if_pos hle] at h; exact absurd h (by simp)
  · rw [if_neg hle] at h
    simp only [Except.ok.injEq] at h
    exact ⟨by omega, by rw [← h]; rfl⟩

theorem parse_number_spec (fuel : Nat) (s : Scanner) (lex : List Char) (s' : Scanner)
    (h : parse_number fuel s = some (Except.ok (lex, s'))) :
    s'.source = s.source ∧ s'.start = s.start ∧ s'.line = s.line ∧
    s.current ≤ s'.current ∧
    (s.current ≤ s.source.length → s'.current ≤ s.source.length) ∧
    countNL (substring s.source s.current s'.current) = 0 := by
  rw [parse_number] at h
  cases h1 : skip_digits fuel s with
  | none => rw [h1] at h; exact absurd h (by simp)
  | some s1 =>
    rw [h1] at h
    dsimp only at h
    obtain ⟨g1, g2, g3, g4, g5, g6⟩ := skip_digits_spec fuel s s1 h1
    by_cases hdot : peek s1 = '.'
    · rw [if_pos hdot] at h
      cases hpn : peek_next s1 with
      | error e => rw [hpn] at h; exact absurd h (by simp)
      | ok c2 =>
        rw [hpn] at h
        dsimp only at h
        have hlt2 := (peek_next_ok hpn).1
        cases hd2 : is_digit c2
        · rw [hd2] at h
          simp only [Bool.false_eq_true, if_false, Option.some.injEq,
            Except.ok.injEq, Prod.mk.injEq] at h
          obtain ⟨-, hs⟩ := h
          subst hs
          exact ⟨g1, g2, g3, g4, g5, g6⟩
        · rw [hd2] at h
          simp only [if_true] at h
          cases h2 : skip_digits fuel { s1 with current := s1.current + 1 } with
          | none => rw [h2] at h; exact absurd h (by simp)
          | some s2 =>
            rw [h2] at h
            dsimp only at h
            obtain ⟨k1, k2, k3, k4, k5, k6⟩ := skip_digits_spec fuel _ _ h2
            dsimp only at k1 k2 k3 k4 k5 k6
            rw [g1] at hlt2 k5 k6
            simp only [Option.some.injEq, Except.ok.injEq, Prod.mk.injEq] at h
            obtain ⟨-, hs⟩ := h
            subst hs
            have hlt1 : s1.current < s.source.length := by omega
            have hdotnl : countNL (substring s.source s1.current (s1.current + 1)) = 0 := by
              rw [substring_cons s.source s1.current (s1.current + 1) (by omega) hlt1,
                substring_self, countNL_cons]
              have hpk : s.source.getD s1.current '\x00' = peek s1 := by
                rw [peek_of_lt (show s1.current < s1.source.length by rw [g1]; exact hlt1)]
                rw [g1]
              rw [hpk, if_neg (by rw [hdot]; decide)]
              rfl
            refine ⟨by rw [k1, g1], by rw [k2, g2], by rw [k3, g3], by omega,
              fun _ => k5 (by omega), ?_⟩
            rw [countNL_substring_split s.source s.current s1.current s2.current
                (by omega) (by omega), g6,
              countNL_substring_split s.source s1.current (s1.current + 1) s2.current
                (by omega) (by omega), hdotnl, k6]
    · rw [if_neg hdot] at h
      simp only [Option.some.injEq, Except.ok.injEq, Prod.mk.injEq] at h
      obtain ⟨-, hs⟩ := h
      subst hs
      exact ⟨g1, g2, g3, g4, g5, g6⟩

theorem build_ok_fields {lex : List Char} {line : Nat} {t : Token}
    (h : Token.build lex line = Except.ok t) : t.lexeme = lex ∧ t.line = line := by
  simp only [Token.build] at h
  cases hf : TokenType.from_str lex with
  | none => rw [hf] at h; exact absurd h (by simp)
  | some ty =>
    rw [hf] at h
    simp only [Except.ok.injEq] at h
    subst h
    exact ⟨rfl, rfl⟩

theorem build_error_shape {lex : List Char} {line : Nat} {e : LoxError}
    (h : Token.build lex line = Except.error e) :
    e = LoxError.InvalidToken line lex := by
  simp only [Token.build] at h
  cases hf : TokenType.from_str lex with
  | none =>
    rw [hf] at h
    simp only [Except.error.injEq] at h
    exact h.symm
  | some ty => rw [hf] at h; exact absurd h (by simp)

theorem countNL_single (l : List Char) (a : Nat) (ha : a < l.length)
    (hc : ¬(l.getD a '\x00' = '\n')) : countNL (substring l a (a + 1)) = 0 := by
  rw [substring_cons l a (a + 1) (by omega) ha, substring_self, countNL_cons,
    if_neg hc]
  rfl

/-- The workhorse: one successful `scan_token` dispatch moves `current`
strictly forward and at most to the end, preserves `source` and `start`,
bumps `line` by exactly the number of newlines it consumed, and stamps any
produced token with the final line. -/
theorem scan_token_spec (fuel : Nat) (s0 : Scanner) (r : Option Token) (s' : Scanner)
    (hend : is_at_end s0 = false)
    (h : scan_token fuel s0 = some (Except.ok (r, s'))) :
    s'.source = s0.source ∧ s'.start = s0.start ∧ s0.current < s'.current ∧
    s'.current ≤ s0.source.length ∧
    s'.line = s0.line + countNL (substring s0.source s0.current s'.current) ∧
    ∀ t, r = some t → t.line = s'.line := by
  have hlt : s0.current < s0.source.length := by
    simp only [is_at_end, decide_eq_false_iff_not, not_le] at hend
    exact hend
  simp only [scan_token, source_at] at h
  by_cases h1 : s0.source.getD s0.current '\x00' = '(' ∨
      s0.source.getD s0.current '\x00' = ')' ∨
      s0.source.getD s0.current '\x00' = '\x7b' ∨
      s0.source.getD s0.current '\x00' = '\x7d' ∨
      s0.source.getD s0.current '\x00' = ',' ∨
      s0.source.getD s0.current '\x00' = '.' ∨
      s0.source.getD s0.current '\x00' = '-' ∨
      s0.source.getD s0.current '\x00' = '+' ∨
      s0.source.getD s0.current '\x00' = ';' ∨
      s0.source.getD s0.current '\x00' = '*'
  · rw [if_pos h1] at h
    cases hb : Token.build [s0.source.getD s0.current '\x00'] s0.line with
    | error e => rw [hb] at h; exact absurd h (by simp [Except.map])
    | ok t =>
      rw [hb] at h
      simp only [Except.map, Option.some.injEq, Except.ok.injEq, Prod.mk.injEq] at h
      obtain ⟨hr, hs⟩ := h
      subst hs
      have hcn : ¬(s0.source.getD s0.current '\x00' = '\n') := by
        rcases h1 with h1 | h1 | h1 | h1 | h1 | h1 | h1 | h1 | h1 | h1 <;>
          (rw [h1]; decide)
      refine ⟨rfl, rfl, by dsimp only; omega, by dsimp only; omega, ?_, ?_⟩
      · dsimp only
        rw [countNL_single s0.source s0.current hlt hcn]
        omega
      · intro tk htk
        rw [← hr] at htk
        injection htk with htk
        subst htk
        exact ((build_ok_fields hb).2).trans rfl
  · rw [if_neg h1] at h
    by_cases h2 : s0.source.getD s0.current '\x00' = '!' ∨
        s0.source.getD s0.current '\x00' = '=' ∨
        s0.source.getD s0.current '\x00' = '<' ∨
        s0.source.getD s0.current '\x00' = '>'
    · rw [if_pos h2] at h
      simp only [pop_if_exp_is_next] at h
      by_cases hp : is_at_end { s0 with current := s0.current + 1 } = true ∨
          source_at { s0 with current := s0.current + 1 } (s0.current + 1) ≠ '='
      · rw [if_pos hp] at h
        dsimp only at h
        cases hb : Token.build [s0.source.getD s0.current '\x00'] s0.line with
        | error e => rw [hb] at h; exact absurd h (by simp [Except.map])
        | ok t =>
          rw [hb] at h
          simp only [Except.map, Option.some.injEq, Except.ok.injEq, Prod.mk.injEq] at h
          obtain ⟨hr, hs⟩ := h
          subst hs
          have hcn : ¬(s0.source.getD s0.current '\x00' = '\n') := by
            rcases h2 with h2 | h2 | h2 | h2 <;> (rw [h2]; decide)
          refine ⟨rfl, rfl, by dsimp only; omega, by dsimp only; omega, ?_, ?_⟩
          · dsimp only
            rw [countNL_single s0.source s0.current hlt hcn]
            omega
          · intro tk htk
            rw [← hr] at htk
            injection htk with htk
            subst htk
            exact ((build_ok_fields hb).2).trans rfl
      · rw [if_neg hp] at h
        dsimp only at h
        push_neg at hp
        obtain ⟨hp1, hp2⟩ := hp
        have hlt1 : s0.current + 1 < s0.source.length := by
          by_contra hcon
          exact hp1 (by simp only [is_at_end, decide_eq_true_eq]; omega)
        cases hb : Token.build [s0.source.getD s0.current '\x00', '='] s0.line with
        | error e => rw [hb] at h; exact absurd h (by simp [Except.map])
        | ok t =>
          rw [hb] at h
          simp only [Except.map, Option.some.injEq, Except.ok.injEq, Prod.mk.injEq] at h
          obtain ⟨hr, hs⟩ := h
          subst hs
          have hcn : ¬(s0.source.getD s0.current '\x00' = '\n') := by
            rcases h2 with h2 | h2 | h2 | h2 <;> (rw [h2]; decide)
          have heq : s0.source.getD (s0.current + 1) '\x00' = '=' := by
            simpa only [source_at] using hp2
          refine ⟨rfl, rfl, by dsimp only; omega, by dsimp only; omega, ?_, ?_⟩
          · dsimp only
            rw [countNL_substring_split s0.source s0.current (s0.current + 1)
                (s0.current + 2) (by omega) (by omega),
              countNL_single s0.source s0.current hlt hcn,
              countNL_single s0.source (s0.current + 1) hlt1 (by rw [heq]; decide)]
            omega
          · intro tk htk
            rw [← hr] at htk
            injection htk with htk
            subst htk
            exact ((build_ok_fields hb).2).trans rfl
    · rw [if_neg h2] at h
      by_cases h3 : s0.source.getD s0.current '\x00' = '/'
      · rw [if_pos h3] at h
        simp only [pop_if_exp_is_next] at h
        by_cases hp : is_at_end { s0 with current := s0.current + 1 } = true ∨
            source_at { s0 with current := s0.current + 1 } (s0.current + 1) ≠ '/'
        · rw [if_pos hp] at h
          dsimp only at h
          cases hb : Token.build [s0.source.getD s0.current '\x00'] s0.line with
          | error e => rw [hb] at h; exact absurd h (by simp [Except.map])
          | ok t =>
            rw [hb] at h
            simp only [Except.map, Option.some.injEq, Except.ok.injEq, Prod.mk.injEq] at h
            obtain ⟨hr, hs⟩ := h
            subst hs
            refine ⟨rfl, rfl, by dsimp only; omega, by dsimp only; omega, ?_, ?_⟩
            · dsimp only
              rw [countNL_single s0.source s0.current hlt (by rw [h3]; decide)]
              omega
            · intro tk htk
              rw [← hr] at htk
              injection htk with htk
              subst htk
              exact ((build_ok_fields hb).2).trans rfl
        · rw [if_neg hp] at h
          dsimp only at h
          push_neg at hp
          obtain ⟨hp1, hp2⟩ := hp
          have hlt1 : s0.current + 1 < s0.source.length := by
            by_contra hcon
            exact hp1 (by simp only [is_at_end, decide_eq_true_eq]; omega)
          cases hsc : skip_comment fuel { s0 with current := s0.current + 1 + 1 } with
          | none => rw [hsc] at h; exact absurd h (by simp)
          | some s2 =>
            rw [hsc] at h
            simp only [Option.map_some', Option.some.injEq, Except.ok.injEq,
              Prod.mk.injEq] at h
            obtain ⟨hr, hs⟩ := h
            subst hs
            obtain ⟨k1, k2, k3, k4, k5, k6⟩ := skip_comment_spec fuel _ _ hsc
            dsimp only at k1 k2 k3 k4 k5 k6
            have heq : s0.source.getD (s0.current + 1) '\x00' = '/' := by
              simpa only [source_at] using hp2
            refine ⟨k1, k2, by omega, k5 (by omega), ?_, ?_⟩
            · rw [k3]
              rw [countNL_substring_split s0.source s0.current (s0.current + 2)
                  s2.current (by omega) (by omega),
                countNL_substring_split s0.source s0.current (s0.current + 1)
                  (s0.current + 2) (by omega) (by omega),
                countNL_single s0.source s0.current hlt (by rw [h3]; decide),
                countNL_single s0.source (s0.current + 1) hlt1 (by rw [heq]; decide)]
              have k6' : countNL (substring s0.source (s0.current + 2) s2.current) = 0 := by
                simpa using k6
              rw [k6']
              omega
            · intro tk htk
              rw [← hr] at htk
              exact absurd htk (by simp)
      · rw [if_neg h3] at h
        by_cases h4 : s0.source.getD s0.current '\x00' = ' ' ∨
            s0.source.getD s0.current '\x00' = '\x0d' ∨
            s0.source.getD s0.current '\x00' = '\t'
        · rw [if_pos h4] at h
          simp only [Option.some.injEq, Except.ok.injEq, Prod.mk.injEq] at h
          obtain ⟨hr, hs⟩ := h
          subst hs
          have hcn : ¬(s0.source.getD s0.current '\x00' = '\n') := by
            rcases h4 with h4 | h4 | h4 <;> (rw [h4]; decide)
          refine ⟨rfl, rfl, by dsimp only; omega, by dsimp only; omega, ?_, ?_⟩
          · dsimp only
            rw [countNL_single s0.source s0.current hlt hcn]
            omega
          · intro tk htk
            rw [← hr] at htk
            exact absurd htk (by simp)
        · rw [if_neg h4] at h
          by_cases h5 : s0.source.getD s0.current '\x00' = '\n'
          · rw [if_pos h5] at h
            simp only [Option.some.injEq, Except.ok.injEq, Prod.mk.injEq] at h
            obtain ⟨hr, hs⟩ := h
            subst hs
            refine ⟨rfl, rfl, by dsimp only; omega, by dsimp only; omega, ?_, ?_⟩
            · dsimp only
              rw [substring_cons s0.source s0.current (s0.current + 1) (by omega) hlt,
                substring_self, countNL_cons, if_pos h5]
              rfl
            · intro tk htk
              rw [← hr] at htk
              exact absurd htk (by simp)
          · rw [if_neg h5] at h
            by_cases h6 : s0.source.getD s0.current '\x00' = '"'
            · rw [if_pos h6] at h
              cases hps : parse_string fuel { s0 with current := s0.current + 1 } with
              | none => rw [hps] at h; exact absurd h (by simp)
              | some rs =>
                rw [hps] at h
                cases rs with
                | error e =>
                  exact absurd h (by simp [Except.map])
                | ok p =>
                  obtain ⟨lex, s2⟩ := p
                  simp only [Except.map, Option.map_some', Option.some.injEq,
                    Except.ok.injEq, Prod.mk.injEq] at h
                  obtain ⟨hr, hs⟩ := h
                  subst hs
                  obtain ⟨k1, k2, k3, k4, k5⟩ := parse_string_spec fuel _ _ _ hps
                  dsimp only at k1 k2 k3 k4 k5
                  refine ⟨k1, k2, by omega, k4, ?_, ?_⟩
                  · rw [k5]
                    rw [countNL_substring_split s0.source s0.current (s0.current + 1)
                        s2.current (by omega) (by omega),
                      countNL_single s0.source s0.current hlt (by rw [h6]; decide)]
                    omega
                  · intro tk htk
                    rw [← hr] at htk
                    injection htk with htk
                    subst htk
                    rfl
            · rw [if_neg h6] at h
              cases hd : is_digit (s0.source.getD s0.current '\x00') with
              | true =>
                rw [hd] at h
                simp only [if_true] at h
                cases hpn : parse_number fuel { s0 with current := s0.current + 1 } with
                | none => rw [hpn] at h; exact absurd h (by simp)
                | some rs =>
                  rw [hpn] at h
                  cases rs with
                  | error e =>
                    exact absurd h (by simp [Except.map])
                  | ok p =>
                    obtain ⟨lex, s2⟩ := p
                    simp only [Except.map, Option.map_some', Option.some.injEq,
                      Except.ok.injEq, Prod.mk.injEq] at h
                    obtain ⟨hr, hs⟩ := h
                    subst hs
                    obtain ⟨k1, k2, k3, k4, k5, k6⟩ := parse_number_spec fuel _ _ _ hpn
                    dsimp only at k1 k2 k3 k4 k5 k6
                    refine ⟨k1, k2, by omega, k5 (by omega), ?_, ?_⟩
                    · rw [k3]
                      rw [countNL_substring_split s0.source s0.current (s0.current + 1)
                          s2.current (by omega) (by omega),
                        countNL_single s0.source s0.current hlt (digit_not_nl _ hd)]
                      have k6' : countNL (substring s0.source (s0.current + 1) s2.current) = 0 := by
                        simpa using k6
                      rw [k6']
                      omega
                    · intro tk htk
                      rw [← hr] at htk
                      injection htk with htk
                      subst htk
                      rfl
              | false =>
                rw [hd] at h
                simp only [Bool.false_eq_true, if_false] at h
                cases ha : is_alphabetic (s0.source.getD s0.current '\x00') with
                | true =>
                  rw [ha] at h
                  simp only [if_true] at h
                  cases hpi : parse_identifier fuel { s0 with current := s0.current + 1 } with
                  | none => rw [hpi] at h; exact absurd h (by simp)
                  | some rs =>
                    rw [hpi] at h
                    cases rs with
                    | error e =>
                      exact absurd h (by simp [Except.bind])
                    | ok p =>
                      obtain ⟨lex, s2⟩ := p
                      simp only [Option.map_some'] at h
                      dsimp only [Except.bind] at h
                      cases hb : Token.build lex s2.line with
                      | error e => rw [hb] at h; exact absurd h (by simp [Except.map])
                      | ok t =>
                        rw [hb] at h
                        simp only [Except.map, Option.map_some', Option.some.injEq,
                          Except.ok.injEq, Prod.mk.injEq] at h
                        obtain ⟨hr, hs⟩ := h
                        subst hs
                        obtain ⟨k1, k2, k3, k4, k5, k6⟩ := parse_identifier_spec fuel _ _ _ hpi
                        dsimp only at k1 k2 k3 k4 k5 k6
                        refine ⟨k1, k2, by omega, k5 (by omega), ?_, ?_⟩
                        · rw [k3]
                          rw [countNL_substring_split s0.source s0.current (s0.current + 1)
                              s2.current (by omega) (by omega),
                            countNL_single s0.source s0.current hlt (alpha_not_nl _ ha)]
                          have k6' : countNL (substring s0.source (s0.current + 1) s2.current) = 0 := by
                            simpa using k6
                          rw [k6']
                          omega
                        · intro tk htk
                          rw [← hr] at htk
                          injection htk with htk
                          subst htk
                          exact (build_ok_fields hb).2
                | false =>
                  rw [ha] at h
                  simp only [Bool.false_eq_true, if_false] at h
                  exact absurd h (by simp)

/-! ### Fuel sufficiency: every loop finishes within `length - current` steps -/

theorem skip_comment_suff (fuel : Nat) : ∀ s : Scanner,
    s.source.length - s.current < fuel → skip_comment fuel s ≠ none := by
  induction fuel with
  | zero => intro s h; exact absurd h (by omega)
  | succ fuel ih =>
    intro s h
    simp only [skip_comment]
    by_cases hc : peek s ≠ '\n' ∧ is_at_end s = false
    · rw [if_pos hc]
      have hlt : s.current < s.source.length := by
        have := hc.2
        simp only [is_at_end, decide_eq_false_iff_not, not_le] at this
        exact this
      exact ih _ (by dsimp only; omega)
    · rw [if_neg hc]; simp

theorem skip_digits_suff (fuel : Nat) : ∀ s : Scanner,
    s.source.length - s.current < fuel → skip_digits fuel s ≠ none := by
  induction fuel with
  | zero => intro s h; exact absurd h (by omega)
  | succ fuel ih =>
    intro s h
    simp only [skip_digits]
    cases hd : is_digit (peek s)
    · simp
    · simp only [if_true]
      have hlt : s.current < s.source.length := current_lt_of_peek hd (by decide)
      exact ih _ (by dsimp only; omega)

theorem parse_identifier_suff (fuel : Nat) : ∀ s : Scanner,
    s.source.length - s.current < fuel → parse_identifier fuel s ≠ none := by
  induction fuel with
  | zero => intro s h; exact absurd h (by omega)
  | succ fuel ih =>
    intro s h
    simp only [parse_identifier]
    cases hd : is_alphanumeric (peek s)
    · simp
    · simp only [if_true]
      have hlt : s.current < s.source.length := current_lt_of_peek hd (by decide)
      exact ih _ (by dsimp only; omega)

theorem parse_string_suff (fuel : Nat) : ∀ s : Scanner,
    s.source.length - s.current < fuel → parse_string fuel s ≠ none := by
  induction fuel with
  | zero => intro s h; exact absurd h (by omega)
  | succ fuel ih =>
    intro s h
    simp only [parse_string]
    by_cases hq : peek s ≠ '"'
    · rw [if_pos hq]
      by_cases hend : is_at_end s = true
      · rw [if_pos hend]; simp
      · rw [if_neg hend]
        have hlt : s.current < s.source.length := by
          simp only [is_at_end, decide_eq_true_eq] at hend
          omega
        exact ih _ (by dsimp only; omega)
    · rw [if_neg hq]; simp

theorem parse_number_suff (fuel : Nat) (s : Scanner)
    (h : s.source.length - s.current < fuel) : parse_number fuel s ≠ none := by
  rw [parse_number]
  cases h1 : skip_digits fuel s with
  | none => exact absurd h1 (skip_digits_suff fuel s h)
  | some s1 =>
    obtain ⟨g1, g2, g3, g4, g5, g6⟩ := skip_digits_spec fuel s s1 h1
    dsimp only
    by_cases hdot : peek s1 = '.'
    · rw [if_pos hdot]
      cases hpn : peek_next s1 with
      | error e => simp
      | ok c2 =>
        have hlt2 := (peek_next_ok hpn).1
        dsimp only
        cases hd2 : is_digit c2
        · simp
        · rw [if_pos rfl]
          cases h2 : skip_digits fuel { s1 with current := s1.current + 1 } with
          | none =>
            refine absurd h2 (skip_digits_suff fuel _ ?_)
            dsimp only
            rw [g1]
            rw [g1] at hlt2
            omega
          | some s2 => simp
    · rw [if_neg hdot]; simp

theorem scan_token_suff (fuel : Nat) (s : Scanner)
    (hlt : s.current < s.source.length)
    (hfuel : s.source.length - (s.current + 1) < fuel) :
    scan_token fuel s ≠ none := by
  intro hnone
  simp only [scan_token, source_at] at hnone
  by_cases h1 : s.source.getD s.current '\x00' = '(' ∨
      s.source.getD s.current '\x00' = ')' ∨
      s.source.getD s.current '\x00' = '\x7b' ∨
      s.source.getD s.current '\x00' = '\x7d' ∨
      s.source.getD s.current '\x00' = ',' ∨
      s.source.getD s.current '\x00' = '.' ∨
      s.source.getD s.current '\x00' = '-' ∨
      s.source.getD s.current '\x00' = '+' ∨
      s.source.getD s.current '\x00' = ';' ∨
      s.source.getD s.current '\x00' = '*'
  · rw [if_pos h1] at hnone
    exact absurd hnone (by simp)
  · rw [if_neg h1] at hnone
    by_cases h2 : s.source.getD s.current '\x00' = '!' ∨
        s.source.getD s.current '\x00' = '=' ∨
        s.source.getD s.current '\x00' = '<' ∨
        s.source.getD s.current '\x00' = '>'
    · rw [if_pos h2] at hnone
      rcases hp : pop_if_exp_is_next { s with current := s.current + 1 } '=' with ⟨oc, s1⟩
      rw [hp] at hnone
      cases oc <;> exact absurd hnone (by simp)
    · rw [if_neg h2] at hnone
      by_cases h3 : s.source.getD s.current '\x00' = '/'
      · rw [if_pos h3] at hnone
        simp only [pop_if_exp_is_next] at hnone
        by_cases hpc : is_at_end { s with current := s.current + 1 } = true ∨
            source_at { s with current := s.current + 1 } (s.current + 1) ≠ '/'
        · rw [if_pos hpc] at hnone
          exact absurd hnone (by simp)
        · rw [if_neg hpc] at hnone
          dsimp only at hnone
          rw [Option.map_eq_none'] at hnone
          refine absurd hnone (skip_comment_suff fuel _ ?_)
          dsimp only
          omega
      · rw [if_neg h3] at hnone
        by_cases h4 : s.source.getD s.current '\x00' = ' ' ∨
            s.source.getD s.current '\x00' = '\x0d' ∨
            s.source.getD s.current '\x00' = '\t'
        · rw [if_pos h4] at hnone; exact absurd hnone (by simp)
        · rw [if_neg h4] at hnone
          by_cases h5 : s.source.getD s.current '\x00' = '\n'
          · rw [if_pos h5] at hnone; exact absurd hnone (by simp)
          · rw [if_neg h5] at hnone
            by_cases h6 : s.source.getD s.current '\x00' = '"'
            · rw [if_pos h6] at hnone
              rw [Option.map_eq_none'] at hnone
              refine absurd hnone (parse_string_suff fuel _ ?_)
              dsimp only
              omega
            · rw [if_neg h6] at hnone
              cases hd : is_digit (s.source.getD s.current '\x00')
              · rw [hd] at hnone
                simp only [Bool.false_eq_true, if_false] at hnone
                cases ha : is_alphabetic (s.source.getD s.current '\x00')
                · rw [ha] at hnone
                  simp only [Bool.false_eq_true, if_false] at hnone
                  exact absurd hnone (by simp)
                · rw [ha] at hnone
                  simp only [if_true] at hnone
                  rw [Option.map_eq_none'] at hnone
                  refine absurd hnone (parse_identifier_suff fuel _ ?_)
                  dsimp only
                  omega
              · rw [hd] at hnone
                simp only [if_true] at hnone
                rw [Option.map_eq_none'] at hnone
                refine absurd hnone (parse_number_suff fuel _ ?_)
                dsimp only
                omega

theorem scan_tokens_go_suff (fuel : Nat) : ∀ s : Scanner,
    s.source.length - s.current < fuel → scan_tokens_go fuel s ≠ none := by
  induction fuel with
  | zero => intro s h; exact absurd h (by omega)
  | succ fuel ih =>
    intro s h
    simp only [scan_tokens_go]
    by_cases hend : is_at_end s = true
    · rw [if_pos hend]; simp
    · rw [if_neg hend]
      have hlt : s.current < s.source.length := by
        simp only [is_at_end, decide_eq_true_eq] at hend
        omega
      have hend' : is_at_end s = false := by simpa using hend
      cases hst : scan_token fuel { s with start := s.current } with
      | none =>
        exact absurd hst (scan_token_suff fuel _ (by dsimp only; exact hlt)
          (by dsimp only; omega))
      | some r =>
        cases r with
        | error e => simp
        | ok p =>
          obtain ⟨opt, s1⟩ := p
          obtain ⟨g1, g2, g3, g4, g5, g6⟩ :=
            scan_token_spec fuel { s with start := s.current } opt s1 hend' hst
          dsimp only at g1 g3 g4
          cases hgo : scan_tokens_go fuel s1 with
          | none =>
            exact absurd hgo (ih s1 (by rw [g1]; omega))
          | some r2 =>
            dsimp only
            rw [hgo]
            cases r2 <;> simp

/-! ### Structure of successful whole-scan results -/

theorem scan_tokens_go_last (fuel : Nat) : ∀ (s : Scanner) ts sf,
    scan_tokens_go fuel s = some (Except.ok (ts, sf)) →
    sf.source = s.source ∧ is_at_end sf = true ∧ ts ≠ [] ∧
    ts.getLast? = some (Token.new TokenType.Eof [] sf.line) := by
  induction fuel with
  | zero => intro s ts sf h; simp [scan_tokens_go] at h
  | succ fuel ih =>
    intro s ts sf h
    simp only [scan_tokens_go] at h
    by_cases hend : is_at_end s = true
    · rw [if_pos hend] at h
      simp only [Option.some.injEq, Except.ok.injEq, Prod.mk.injEq] at h
      obtain ⟨hts, hsf⟩ := h
      subst hsf
      subst hts
      exact ⟨rfl, hend, by simp, by simp⟩
    · rw [if_neg hend] at h
      cases hst : scan_token fuel { s with start := s.current } with
      | none => rw [hst] at h; exact absurd h (by simp)
      | some r =>
        rw [hst] at h
        cases r with
        | error e => exact absurd h (by simp)
        | ok p =>
          obtain ⟨opt, s1⟩ := p
          dsimp only at h
          cases hgo : scan_tokens_go fuel s1 with
          | none => rw [hgo] at h; exact absurd h (by simp)
          | some r2 =>
            rw [hgo] at h
            cases r2 with
            | error e => exact absurd h (by simp)
            | ok p2 =>
              obtain ⟨ts2, sf2⟩ := p2
              simp only [Option.some.injEq, Except.ok.injEq, Prod.mk.injEq] at h
              obtain ⟨hts, hsf⟩ := h
              subst hsf
              subst hts
              obtain ⟨m1, m2, m3, m4⟩ := ih s1 ts2 sf2 hgo
              obtain ⟨g1, g2, g3, g4, g5, g6⟩ :=
                scan_token_spec fuel { s with start := s.current } opt s1
                  (by simpa using hend) hst
              dsimp only at g1
              refine ⟨by rw [m1, g1], m2, by simp [m3], ?_⟩
              rw [List.getLast?_append_of_ne_nil _ m3]
              exact m4

theorem scan_tokens_spans_proj (fuel : Nat) : ∀ s : Scanner,
    scan_tokens_go fuel s =
      (scan_tokens_spans_go fuel s).map
        (Except.map (fun p => (p.1.map Prod.fst, p.2))) := by
  induction fuel with
  | zero => intro s; rfl
  | succ fuel ih =>
    intro s
    simp only [scan_tokens_go, scan_tokens_spans_go]
    by_cases hend : is_at_end s = true
    · rw [if_pos hend, if_pos hend]
      simp [Except.map]
    · rw [if_neg hend, if_neg hend]
      cases hst : scan_token fuel { s with start := s.current } with
      | none => rfl
      | some r =>
        cases r with
        | error e => rfl
        | ok p =>
          obtain ⟨opt, s1⟩ := p
          dsimp only
          rw [ih s1]
          cases hgo : scan_tokens_spans_go fuel s1 with
          | none => rfl
          | some r2 =>
            cases r2 with
            | error e => rfl
            | ok p2 =>
              obtain ⟨tps, sf⟩ := p2
              cases opt <;> simp [Except.map]

/-- Preservation of the line-number invariant across one dispatch. -/
theorem scan_token_line_inv (fuel : Nat) (s0 : Scanner) (r : Option Token)
    (s' : Scanner) (hend : is_at_end s0 = false)
    (h : scan_token fuel s0 = some (Except.ok (r, s')))
    (hinv : line_inv s0) : line_inv s' := by
  obtain ⟨g1, g2, g3, g4, g5, g6⟩ := scan_token_spec fuel s0 r s' hend h
  rw [line_inv, g1, g5, hinv,
    countNL_substring_split s0.source 0 s0.current s'.current (by omega) (by omega)]
  omega

/-- Every token recorded by the span-instrumented scan carries the line
`1 + (newlines strictly before the position where its scan finished)`. -/
theorem scan_tokens_spans_line (fuel : Nat) : ∀ (s : Scanner) tps sf,
    line_inv s → s.current ≤ s.source.length →
    scan_tokens_spans_go fuel s = some (Except.ok (tps, sf)) →
    ∀ p ∈ tps, p.1.line = 1 + countNL (substring s.source 0 p.2.2) := by
  induction fuel with
  | zero => intro s tps sf _ _ h; simp [scan_tokens_spans_go] at h
  | succ fuel ih =>
    intro s tps sf hinv hcur h
    simp only [scan_tokens_spans_go] at h
    by_cases hend : is_at_end s = true
    · rw [if_pos hend] at h
      simp only [Option.some.injEq, Except.ok.injEq, Prod.mk.injEq] at h
      obtain ⟨hts, hsf⟩ := h
      subst hts
      intro p hp
      simp only [List.mem_singleton] at hp
      subst hp
      exact hinv
    · rw [if_neg hend] at h
      cases hst : scan_token fuel { s with start := s.current } with
      | none => rw [hst] at h; exact absurd h (by simp)
      | some r =>
        rw [hst] at h
        cases r with
        | error e => exact absurd h (by simp)
        | ok p0 =>
          obtain ⟨opt, s1⟩ := p0
          dsimp only at h
          cases hgo : scan_tokens_spans_go fuel s1 with
          | none => rw [hgo] at h; exact absurd h (by simp)
          | some r2 =>
            rw [hgo] at h
            cases r2 with
            | error e => exact absurd h (by simp)
            | ok p2 =>
              obtain ⟨tps2, sf2⟩ := p2
              simp only [Option.some.injEq, Except.ok.injEq, Prod.mk.injEq] at h
              obtain ⟨hts, hsf⟩ := h
              subst hts
              obtain ⟨g1, g2, g3, g4, g5, g6⟩ :=
                scan_token_spec fuel { s with start := s.current } opt s1
                  (by simpa using hend) hst
              dsimp only at g1 g3 g4
              have hinv1 : line_inv s1 :=
                scan_token_line_inv fuel _ opt s1 (by simpa using hend) hst hinv
              have htail := ih s1 tps2 sf2 hinv1 (by rw [g1]; omega) hgo
              intro p hp
              rw [List.mem_append] at hp
              rcases hp with hp | hp
              · cases opt with
                | none => simp at hp
                | some t =>
                  simp only [Option.map_some', Option.toList_some,
                    List.mem_singleton] at hp
                  subst hp
                  dsimp only
                  rw [g6 t rfl]
                  rw [hinv1, g1]
              · have := htail p hp
                rw [g1] at this
                exact this

/-! ### Full characterizations of the literal-scanning loops -/

theorem skip_digits_run (fuel : Nat) : ∀ (s : Scanner) (k : Nat),
    k = ((s.source.drop s.current).takeWhile is_digit).length →
    s.source.length - s.current < fuel → s.current ≤ s.source.length →
    skip_digits fuel s = some { s with current := s.current + k } := by
  induction fuel with
  | zero => intro s k _ hfuel _; exact absurd hfuel (by omega)
  | succ fuel ih =>
    intro s k hk hfuel hcur
    simp only [skip_digits]
    rcases Nat.lt_or_ge s.current s.source.length with hlt | hge
    · have hdrop : s.source.drop s.current =
          s.source.getD s.current '\x00' :: s.source.drop (s.current + 1) := by
        rw [List.drop_eq_getElem_cons hlt, List.getD_eq_getElem s.source '\x00' hlt]
      cases hd : is_digit (s.source.getD s.current '\x00')
      · have hk0 : k = 0 := by
          rw [hk, hdrop, List.takeWhile_cons, hd]
          simp
        rw [peek_of_lt hlt, hd, if_neg (by simp)]
        rw [hk0]
        rfl
      · have hk1 : k = ((s.source.drop (s.current + 1)).takeWhile is_digit).length + 1 := by
          rw [hk, hdrop, List.takeWhile_cons, hd]
          simp
        rw [peek_of_lt hlt, hd, if_pos rfl]
        have := ih { s with current := s.current + 1 }
          ((s.source.drop (s.current + 1)).takeWhile is_digit).length rfl
          (by dsimp only; omega) (by dsimp only; omega)
        rw [this]
        have harith : s.current + 1 + ((s.source.drop (s.current + 1)).takeWhile is_digit).length =
            s.current + k := by omega
        rw [show ({ s with current := s.current + 1 } : Scanner).current = s.current + 1 from rfl]
        rw [harith]
    · have hk0 : k = 0 := by
        rw [hk, List.drop_eq_nil_of_le hge]
        rfl
      rw [peek_of_ge hge]
      rw [if_neg (by decide)]
      rw [hk0]
      rfl

theorem parse_identifier_run (fuel : Nat) : ∀ (s : Scanner) (k : Nat),
    k = ((s.source.drop s.current).takeWhile is_alphanumeric).length →
    s.source.length - s.current < fuel → s.current ≤ s.source.length →
    parse_identifier fuel s =
      some (Except.ok (substring s.source s.start (s.current + k),
        { s with current := s.current + k })) := by
  induction fuel with
  | zero => intro s k _ hfuel _; exact absurd hfuel (by omega)
  | succ fuel ih =>
    intro s k hk hfuel hcur
    simp only [parse_identifier]
    rcases Nat.lt_or_ge s.current s.source.length with hlt | hge
    · have hdrop : s.source.drop s.current =
          s.source.getD s.current '\x00' :: s.source.drop (s.current + 1) := by
        rw [List.drop_eq_getElem_cons hlt, List.getD_eq_getElem s.source '\x00' hlt]
      cases hd : is_alphanumeric (s.source.getD s.current '\x00')
      · have hk0 : k = 0 := by
          rw [hk, hdrop, List.takeWhile_cons, hd]
          simp
        rw [peek_of_lt hlt, hd, if_neg (by simp)]
        rw [hk0]
        rfl
      · have hk1 : k = ((s.source.drop (s.current + 1)).takeWhile is_alphanumeric).length + 1 := by
          rw [hk, hdrop, List.takeWhile_cons, hd]
          simp
        rw [peek_of_lt hlt, hd, if_pos rfl]
        have := ih { s with current := s.current + 1 }
          ((s.source.drop (s.current + 1)).takeWhile is_alphanumeric).length rfl
          (by dsimp only; omega) (by dsimp only; omega)
        rw [this]
        have harith : s.current + 1 + ((s.source.drop (s.current + 1)).takeWhile is_alphanumeric).length =
            s.current + k := by omega
        rw [show ({ s with current := s.current + 1 } : Scanner).current = s.current + 1 from rfl]
        rw [harith]
    · have hk0 : k = 0 := by
        rw [hk, List.drop_eq_nil_of_le hge]
        rfl
      rw [peek_of_ge hge]
      rw [if_neg (by decide)]
      rw [hk0]
      rfl

theorem parse_string_char (fuel : Nat) : ∀ (s : Scanner) (k : Nat),
    k = ((s.source.drop s.current).takeWhile (fun x => x != '"')).length →
    s.source.length - s.current < fuel → s.current ≤ s.source.length →
    parse_string fuel s =
      if s.current + k < s.source.length then
        some (Except.ok (substring s.source (s.start + 1) (s.current + k),
          { source := s.source, start := s.start, current := s.current + k + 1,
            line := s.line + countNL (substring s.source s.current (s.current + k)) }))
      else
        some (Except.error (LoxError.UnterminatedString
          (s.line + countNL (substring s.source s.current s.source.length)))) := by
  induction fuel with
  | zero => intro s k _ hfuel _; exact absurd hfuel (by omega)
  | succ fuel ih =>
    intro s k hk hfuel hcur
    simp only [parse_string]
    rcases Nat.lt_or_ge s.current s.source.length with hlt | hge
    · have hdrop : s.source.drop s.current =
          s.source.getD s.current '\x00' :: s.source.drop (s.current + 1) := by
        rw [List.drop_eq_getElem_cons hlt, List.getD_eq_getElem s.source '\x00' hlt]
      by_cases hq : s.source.getD s.current '\x00' = '"'
      · have hk0 : k = 0 := by
          rw [hk, hdrop, List.takeWhile_cons, hq]
          simp
        rw [if_neg (show ¬(peek s ≠ '"') from fun hcon =>
          hcon (by rw [peek_of_lt hlt]; exact hq))]
        have hcond2 : s.current + k < s.source.length := by omega
        rw [hk0] at hcond2 ⊢
        rw [if_pos hcond2]
        rw [show s.current + 0 = s.current from rfl, substring_self]
        rw [show s.current + 1 - 1 = s.current from by omega]
        have : s.line + countNL [] = s.line := by simp [countNL]
        rw [this]
      · have hk1 : k = ((s.source.drop (s.current + 1)).takeWhile (fun x => x != '"')).length + 1 := by
          rw [hk, hdrop, List.takeWhile_cons]
          have hb : (s.source.getD s.current '\x00' != '"') = true := by
            rw [bne_iff_ne]
            exact hq
          rw [hb]
          simp
        rw [if_pos (show peek s ≠ '"' by rw [peek_of_lt hlt]; exact hq)]
        rw [if_neg (show ¬(is_at_end s = true) by simp [is_at_end]; omega)]
        have := ih { s with
            line := if peek s = '\n' then s.line + 1 else s.line,
            current := s.current + 1 }
          ((s.source.drop (s.current + 1)).takeWhile (fun x => x != '"')).length rfl
          (by dsimp only; omega) (by dsimp only; omega)
        rw [this]
        dsimp only
        have hdecomp : ∀ b, s.current < b →
            countNL (substring s.source s.current b) =
            (if s.source.getD s.current '\x00' = '\n' then 1 else 0) +
              countNL (substring s.source (s.current + 1) b) := by
          intro b hb
          rw [substring_cons s.source s.current b hb hlt, countNL_cons]
          omega
        set k' := ((s.source.drop (s.current + 1)).takeWhile (fun x => x != '"')).length with hk'
        by_cases hcond : s.current + 1 + k' < s.source.length
        · have hcond2 : s.current + k < s.source.length := by omega
          rw [if_pos hcond, if_pos hcond2]
          have he1 : s.current + k = s.current + 1 + k' := by omega
          rw [he1]
          have he2 : s.line + countNL (substring s.source s.current (s.current + 1 + k')) =
              (if peek s = '\n' then s.line + 1 else s.line) +
                countNL (substring s.source (s.current + 1) (s.current + 1 + k')) := by
            rw [hdecomp (s.current + 1 + k') (by omega), peek_of_lt hlt]
            by_cases hnl : s.source.getD s.current '\x00' = '\n'
            · rw [if_pos hnl, if_pos hnl]; omega
            · rw [if_neg hnl, if_neg hnl]; omega
          rw [he2]
        · have hcond2 : ¬(s.current + k < s.source.length) := by omega
          rw [if_neg hcond, if_neg hcond2]
          have he2 : s.line + countNL (substring s.source s.current s.source.length) =
              (if peek s = '\n' then s.line + 1 else s.line) +
                countNL (substring s.source (s.current + 1) s.source.length) := by
            rw [hdecomp s.source.length hlt, peek_of_lt hlt]
            by_cases hnl : s.source.getD s.current '\x00' = '\n'
            · rw [if_pos hnl, if_pos hnl]; omega
            · rw [if_neg hnl, if_neg hnl]; omega
          rw [he2]
    · have hk0 : k = 0 := by
        rw [hk, List.drop_eq_nil_of_le hge]
        rfl
      rw [if_pos (show peek s ≠ '"' by rw [peek_of_ge hge]; decide)]
      rw [if_pos (show is_at_end s = true by simp [is_at_end]; omega)]
      have hcond2 : ¬(s.current + k < s.source.length) := by omega
      rw [if_neg hcond2]
      have hce : s.source.length = s.current := by omega
      rw [hce, substring_self]
      have : s.line + countNL [] = s.line := by simp [countNL]
      rw [this]

/-! ### The spelling table and `Token.build` -/

theorem from_str_isSome_iff (lex : List Char) :
    (TokenType.from_str lex).isSome ↔ lex ∈ token_table.map Prod.fst := by
  rw [TokenType.from_str]
  constructor
  · intro h
    cases hf : token_table.find? (fun p => p.1 == lex) with
    | none => rw [hf] at h; simp at h
    | some p =>
      have hmem := List.mem_of_find?_eq_some hf
      have hpred := List.find?_some hf
      rw [List.mem_map]
      exact ⟨p, hmem, eq_of_beq hpred⟩
  · intro h
    rw [List.mem_map] at h
    obtain ⟨p, hp, rfl⟩ := h
    have hsome : (token_table.find? (fun q => q.1 == p.1)).isSome := by
      rw [List.find?_isSome]
      exact ⟨p, hp, by simp⟩
    obtain ⟨q, hq⟩ := Option.isSome_iff_exists.mp hsome
    rw [hq]
    simp

theorem table_fst_mem_iff (lex : List Char) :
    lex ∈ token_table.map Prod.fst ↔
    lex ∈ fixed_spellings ++ literal_variant_names := by
  constructor
  · intro h
    have hall : ∀ x ∈ token_table.map Prod.fst,
        x ∈ fixed_spellings ++ literal_variant_names := by decide
    exact hall _ h
  · intro h
    have hall : ∀ x ∈ fixed_spellings ++ literal_variant_names,
        x ∈ token_table.map Prod.fst := by decide
    exact hall _ h

theorem build_ok_of_mem (lex : List Char) (line : Nat)
    (h : lex ∈ fixed_spellings ++ literal_variant_names) :
    ∃ t, Token.build lex line = Except.ok t ∧ t.lexeme = lex ∧ t.line = line := by
  have hsome : (TokenType.from_str lex).isSome := by
    rw [from_str_isSome_iff, table_fst_mem_iff]
    exact h
  obtain ⟨ty, hty⟩ := Option.isSome_iff_exists.mp hsome
  exact ⟨Token.new ty lex line, by simp only [Token.build, hty], rfl, rfl⟩

theorem build_error_of_not_mem (lex : List Char) (line : Nat)
    (h : lex ∉ fixed_spellings ++ literal_variant_names) :
    Token.build lex line = Except.error (LoxError.InvalidToken line lex) := by
  have hnone : TokenType.from_str lex = none := by
    rw [← Option.not_isSome_iff_eq_none]
    rw [from_str_isSome_iff, table_fst_mem_iff]
    exact h
  simp only [Token.build, hnone]

theorem build_mem_of_ok (lex : List Char) (line : Nat) (t : Token)
    (h : Token.build lex line = Except.ok t) :
    lex ∈ fixed_spellings ++ literal_variant_names := by
  by_contra hmem
  rw [build_error_of_not_mem lex line hmem] at h
  exact absurd h (by simp)

theorem alpha_spelling_mem (c : Char) (cs : List Char)
    (h1 : is_alphabetic c = true) :
    (c :: cs) ∈ fixed_spellings ++ literal_variant_names ↔
    (c :: cs) ∈ reserved_words ++ ("EOF".toList :: literal_variant_names) := by
  have hfilter : (fixed_spellings ++ literal_variant_names).filter
      (fun l => is_alphabetic (l.headD '\x00')) =
      reserved_words ++ ("EOF".toList :: literal_variant_names) := by decide
  constructor
  · intro h
    rw [← hfilter]
    rw [List.mem_filter]
    exact ⟨h, by simpa using h1⟩
  · intro h
    rw [← hfilter] at h
    exact (List.mem_filter.mp h).1

theorem takeWhile_all (p : Char → Bool) :
    ∀ l : List Char, (∀ x ∈ l, p x = true) → l.takeWhile p = l := by
  intro l
  induction l with
  | nil => intro _; rfl
  | cons x xs ih =>
    intro h
    rw [List.takeWhile_cons, if_pos (h x (by simp))]
    rw [ih (fun y hy => h y (by simp [hy]))]

theorem mem_drop_iff_exists_index (l : List Char) (n : Nat) (ch : Char) :
    (∃ x ∈ l.drop n, x = ch) ↔
    ∃ j, n ≤ j ∧ j < l.length ∧ l.getD j '\x00' = ch := by
  constructor
  · rintro ⟨x, hx, rfl⟩
    rw [List.mem_iff_getElem] at hx
    obtain ⟨i, hi, hix⟩ := hx
    rw [List.length_drop] at hi
    refine ⟨n + i, by omega, by omega, ?_⟩
    rw [List.getD_eq_getElem l '\x00' (by omega), ← hix]
    rw [List.getElem_drop]
  · rintro ⟨j, hj1, hj2, hj3⟩
    refine ⟨ch, ?_, rfl⟩
    rw [List.mem_iff_getElem]
    refine ⟨j - n, by rw [List.length_drop]; omega, ?_⟩
    rw [List.getD_eq_getElem l '\x00' hj2] at hj3
    rw [← hj3]
    rw [List.getElem_drop]
    congr 1
    omega

/-- Scanning a whole source that is one alphabetic character followed by
alphanumeric characters: the identifier path consumes the entire source and
routes the full slice through `Token.build`. -/
theorem identifier_scan (c : Char) (cs : List Char)
    (h1 : is_alphabetic c = true) (h2 : cs.all is_alphanumeric = true) :
    scan_tokens (Scanner.new (c :: cs)) =
      some (match Token.build (c :: cs) 1 with
        | Except.ok t => Except.ok ([t, Token.new TokenType.Eof [] 1],
            { source := c :: cs, start := 0, current := cs.length + 1, line := 1 })
        | Except.error e => Except.error e) := by
  rw [scan_tokens]
  simp only [Scanner.new, List.length_cons]
  simp only [scan_tokens_go]
  rw [if_neg (show ¬(is_at_end ⟨c :: cs, 0, 0, 1⟩ = true) by
    simp only [is_at_end, decide_eq_true_eq, List.length_cons]
    omega)]
  simp only [scan_token, source_at]
  simp only [List.getD_cons_zero]
  rw [if_neg (alpha_not_punct c h1), if_neg (alpha_not_op c h1),
    if_neg (alpha_not_slash c h1), if_neg (alpha_not_ws c h1),
    if_neg (alpha_not_nl c h1), if_neg (alpha_not_quote c h1),
    alpha_not_digit c h1]
  simp only [Bool.false_eq_true, if_false]
  rw [h1, if_pos rfl]
  have hrun := parse_identifier_run (cs.length + 1) ⟨c :: cs, 0, 1, 1⟩ cs.length
    (by
      dsimp only
      rw [show (c :: cs).drop 1 = cs from rfl]
      rw [takeWhile_all is_alphanumeric cs (fun x hx => by
        rw [List.all_eq_true] at h2
        exact h2 x hx)])
    (by dsimp only; simp only [List.length_cons]; omega)
    (by dsimp only; simp only [List.length_cons]; omega)
  dsimp only at hrun
  rw [hrun]
  rw [show (1 : Nat) + cs.length = cs.length + 1 from by omega]
  rw [show substring (c :: cs) 0 (cs.length + 1) = c :: cs from by
    rw [show cs.length + 1 = (c :: cs).length from by simp]
    exact substring_zero_length (c :: cs)]
  simp only [Option.map_some']
  dsimp only [Except.bind]
  cases hb : Token.build (c :: cs) 1 with
  | error e =>
    dsimp only [Except.map]
  | ok t =>
    dsimp only [Except.map]
    rw [if_pos (show is_at_end ⟨c :: cs, 0, cs.length + 1, 1⟩ = true by
      simp only [is_at_end, decide_eq_true_eq, List.length_cons]
      omega)]
    rfl

/-! ### Eof-kind tokens can only carry the sentinel spelling -/

theorem from_str_eof (lex : List Char)
    (h : TokenType.from_str lex = some TokenType.Eof) : lex = "EOF".toList := by
  rw [TokenType.from_str] at h
  cases hf : token_table.find? (fun p => p.1 == lex) with
  | none => rw [hf] at h; exact absurd h (by simp)
  | some p =>
    rw [hf] at h
    simp only [Option.map_some', Option.some.injEq] at h
    have hmem := List.mem_of_find?_eq_some hf
    have hpred := List.find?_some hf
    have honly : ∀ q ∈ token_table, q.2 = TokenType.Eof → q.1 = "EOF".toList := by
      decide
    rw [← eq_of_beq hpred]
    exact honly p hmem h

theorem build_eof (lex : List Char) (line : Nat) (t : Token)
    (h : Token.build lex line = Except.ok t) (ht : t.type_ = TokenType.Eof) :
    t.lexeme = "EOF".toList := by
  simp only [Token.build] at h
  cases hf : TokenType.from_str lex with
  | none => rw [hf] at h; exact absurd h (by simp)
  | some ty =>
    rw [hf] at h
    simp only [Except.ok.injEq] at h
    subst h
    rw [show (Token.new ty lex line).lexeme = lex from rfl]
    rw [show (Token.new ty lex line).type_ = ty from rfl] at ht
    subst ht
    exact from_str_eof lex hf

/-- Any token produced by one `scan_token` dispatch whose kind is `Eof` must
carry the sentinel lexeme "EOF": the only ways a dispatch builds a token are
`Token.build` on a lexeme (and only "EOF" maps to the `Eof` kind in the
spelling table) and the direct `String`/`Number` constructions. -/
theorem scan_token_eof_lexeme (fuel : Nat) (s0 : Scanner) (t : Token) (s' : Scanner)
    (h : scan_token fuel s0 = some (Except.ok (some t, s')))
    (ht : t.type_ = TokenType.Eof) : t.lexeme = "EOF".toList := by
  simp only [scan_token, source_at] at h
  by_cases h1 : s0.source.getD s0.current '\x00' = '(' ∨
      s0.source.getD s0.current '\x00' = ')' ∨
      s0.source.getD s0.current '\x00' = '\x7b' ∨
      s0.source.getD s0.current '\x00' = '\x7d' ∨
      s0.source.getD s0.current '\x00' = ',' ∨
      s0.source.getD s0.current '\x00' = '.' ∨
      s0.source.getD s0.current '\x00' = '-' ∨
      s0.source.getD s0.current '\x00' = '+' ∨
      s0.source.getD s0.current '\x00' = ';' ∨
      s0.source.getD s0.current '\x00' = '*'
  · rw [if_pos h1] at h
    cases hb : Token.build [s0.source.getD s0.current '\x00'] s0.line with
    | error e => rw [hb] at h; exact absurd h (by simp [Except.map])
    | ok t0 =>
      rw [hb] at h
      simp only [Except.map, Option.some.injEq, Except.ok.injEq, Prod.mk.injEq,
        Option.some.injEq] at h
      obtain ⟨hr, -⟩ := h
      subst hr
      exact build_eof _ _ _ hb ht
  · rw [if_neg h1] at h
    by_cases h2 : s0.source.getD s0.current '\x00' = '!' ∨
        s0.source.getD s0.current '\x00' = '=' ∨
        s0.source.getD s0.current '\x00' = '<' ∨
        s0.source.getD s0.current '\x00' = '>'
    · rw [if_pos h2] at h
      rcases hp : pop_if_exp_is_next { s0 with current := s0.current + 1 } '=' with ⟨oc, s1⟩
      rw [hp] at h
      cases oc with
      | some next_c =>
        dsimp only at h
        cases hb : Token.build [s0.source.getD s0.current '\x00', next_c] s1.line with
        | error e => rw [hb] at h; exact absurd h (by simp [Except.map])
        | ok t0 =>
          rw [hb] at h
          simp only [Except.map, Option.some.injEq, Except.ok.injEq,
            Prod.mk.injEq] at h
          obtain ⟨hr, -⟩ := h
          subst hr
          exact build_eof _ _ _ hb ht
      | none =>
        dsimp only at h
        cases hb : Token.build [s0.source.getD s0.current '\x00'] s1.line with
        | error e => rw [hb] at h; exact absurd h (by simp [Except.map])
        | ok t0 =>
          rw [hb] at h
          simp only [Except.map, Option.some.injEq, Except.ok.injEq,
            Prod.mk.injEq] at h
          obtain ⟨hr, -⟩ := h
          subst hr
          exact build_eof _ _ _ hb ht
    · rw [if_neg h2] at h
      by_cases h3 : s0.source.getD s0.current '\x00' = '/'
      · rw [if_pos h3] at h
        rcases hp : pop_if_exp_is_next { s0 with current := s0.current + 1 } '/' with ⟨oc, s1⟩
        rw [hp] at h
        cases oc with
        | some next_c =>
          dsimp only at h
          cases hsc : skip_comment fuel s1 with
          | none => rw [hsc] at h; exact absurd h (by simp)
          | some s2 =>
            rw [hsc] at h
            simp only [Option.map_some', Option.some.injEq, Except.ok.injEq,
              Prod.mk.injEq] at h
            exact absurd h.1 (by simp)
        | none =>
          dsimp only at h
          cases hb : Token.build [s0.source.getD s0.current '\x00'] s1.line with
          | error e => rw [hb] at h; exact absurd h (by simp [Except.map])
          | ok t0 =>
            rw [hb] at h
            simp only [Except.map, Option.some.injEq, Except.ok.injEq,
              Prod.mk.injEq] at h
            obtain ⟨hr, -⟩ := h
            subst hr
            exact build_eof _ _ _ hb ht
      · rw [if_neg h3] at h
        by_cases h4 : s0.source.getD s0.current '\x00' = ' ' ∨
            s0.source.getD s0.current '\x00' = '\x0d' ∨
            s0.source.getD s0.current '\x00' = '\t'
        · rw [if_pos h4] at h
          exact absurd h (by simp)
        · rw [if_neg h4] at h
          by_cases h5 : s0.source.getD s0.current '\x00' = '\n'
          · rw [if_pos h5] at h
            exact absurd h (by simp)
          · rw [if_neg h5] at h
            by_cases h6 : s0.source.getD s0.current '\x00' = '"'
            · rw [if_pos h6] at h
              cases hps : parse_string fuel { s0 with current := s0.current + 1 } with
              | none => rw [hps] at h; exact absurd h (by simp)
              | some rs =>
                rw [hps] at h
                cases rs with
                | error e => exact absurd h (by simp [Except.map])
                | ok p =>
                  obtain ⟨lex, s2⟩ := p
                  simp only [Except.map, Option.map_some', Option.some.injEq,
                    Except.ok.injEq, Prod.mk.injEq] at h
                  obtain ⟨hr, -⟩ := h
                  subst hr
                  exact absurd ht (by simp [Token.new])
            · rw [if_neg h6] at h
              cases hd : is_digit (s0.source.getD s0.current '\x00') with
              | true =>
                rw [hd] at h
                simp only [if_true] at h
                cases hpn : parse_number fuel { s0 with current := s0.current + 1 } with
                | none => rw [hpn] at h; exact absurd h (by simp)
                | some rs =>
                  rw [hpn] at h
                  cases rs with
                  | error e => exact absurd h (by simp [Except.map])
                  | ok p =>
                    obtain ⟨lex, s2⟩ := p
                    simp only [Except.map, Option.map_some', Option.some.injEq,
                      Except.ok.injEq, Prod.mk.injEq] at h
                    obtain ⟨hr, -⟩ := h
                    subst hr
                    exact absurd ht (by simp [Token.new])
              | false =>
                rw [hd] at h
                simp only [Bool.false_eq_true, if_false] at h
                cases ha : is_alphabetic (s0.source.getD s0.current '\x00') with
                | true =>
                  rw [ha] at h
                  simp only [if_true] at h
                  cases hpi : parse_identifier fuel { s0 with current := s0.current + 1 } with
                  | none => rw [hpi] at h; exact absurd h (by simp)
                  | some rs =>
                    rw [hpi] at h
                    cases rs with
                    | error e => exact absurd h (by simp [Except.bind])
                    | ok p =>
                      obtain ⟨lex, s2⟩ := p
                      simp only [Option.map_some'] at h
                      dsimp only [Except.bind] at h
                      cases hb : Token.build lex s2.line with
                      | error e => rw [hb] at h; exact absurd h (by simp [Except.map])
                      | ok t0 =>
                        rw [hb] at h
                        simp only [Except.map, Option.map_some', Option.some.injEq,
                          Except.ok.injEq, Prod.mk.injEq] at h
                        obtain ⟨hr, -⟩ := h
                        subst hr
                        exact build_eof _ _ _ hb ht
                | false =>
                  rw [ha] at h
                  simp only [Bool.false_eq_true, if_false] at h
                  exact absurd h (by simp)

/-- In every successful run of the scanning loop, any `Eof`-kind token other
than the final appended end marker carries the sentinel lexeme "EOF". -/
theorem scan_tokens_go_eof_lexemes (fuel : Nat) : ∀ (s : Scanner) ts sf,
    scan_tokens_go fuel s = some (Except.ok (ts, sf)) →
    ∀ t ∈ ts.dropLast, t.type_ = TokenType.Eof → t.lexeme = "EOF".toList := by
  induction fuel with
  | zero => intro s ts sf h; simp [scan_tokens_go] at h
  | succ fuel ih =>
    intro s ts sf h
    simp only [scan_tokens_go] at h
    by_cases hend : is_at_end s = true
    · rw [if_pos hend] at h
      simp only [Option.some.injEq, Except.ok.injEq, Prod.mk.injEq] at h
      obtain ⟨hts, -⟩ := h
      subst hts
      intro t htmem
      simp at htmem
    · rw [if_neg hend] at h
      cases hst : scan_token fuel { s with start := s.current } with
      | none => rw [hst] at h; exact absurd h (by simp)
      | some r =>
        rw [hst] at h
        cases r with
        | error e => exact absurd h (by simp)
        | ok p =>
          obtain ⟨opt, s1⟩ := p
          dsimp only at h
          cases hgo : scan_tokens_go fuel s1 with
          | none => rw [hgo] at h; exact absurd h (by simp)
          | some r2 =>
            rw [hgo] at h
            cases r2 with
            | error e => exact absurd h (by simp)
            | ok p2 =>
              obtain ⟨ts2, sf2⟩ := p2
              simp only [Option.some.injEq, Except.ok.injEq, Prod.mk.injEq] at h
              obtain ⟨hts, -⟩ := h
              subst hts
              have hne : ts2 ≠ [] := (scan_tokens_go_last fuel s1 ts2 sf2 hgo).2.2.1
              intro t htmem htt
              rw [List.dropLast_append_of_ne_nil _ hne, List.mem_append] at htmem
              rcases htmem with htmem | htmem
              · cases opt with
                | none => simp at htmem
                | some t0 =>
                  simp only [Option.toList_some, List.mem_singleton] at htmem
                  subst htmem
                  exact scan_token_eof_lexeme fuel _ t s1 hst htt
              · exact ih s1 ts2 sf2 hgo t htmem htt

/-! ### Claim theorems -/

/-- Claim C1, as stated, is false on the code: the source "String" is one
alphabetic character followed by alphanumeric characters and is not a
reserved word, yet `scan_tokens` succeeds on it (the `String` variant of
`TokenType` carries no strum `serialize` attribute, so `from_str` accepts its
bare variant name). -/
theorem c1_scan_counterexample :
    is_alphabetic 'S' = true ∧
    ("tring".toList).all is_alphanumeric = true ∧
    ("String".toList) ∉ reserved_words ∧
    scan_tokens (Scanner.new ("String".toList)) =
      some (Except.ok ([Token.new TokenType.String ("String".toList) 1,
        Token.new TokenType.Eof [] 1],
        { source := "String".toList, start := 0, current := 6, line := 1 })) := by
  decide

/-- Claim C1 (amended): for every source of one alphabetic character followed
by alphanumeric characters, `scan_tokens` routes the whole slice through
`Token.build`; it succeeds exactly when the slice is one of the sixteen
reserved words or one of the spellings "EOF", "Identifier", "String",
"Number" (with lexeme equal to the slice and line 1), and for every other
such slice it fails with `InvalidToken` carrying that slice. -/
theorem c1_identifier_scan_amended (c : Char) (cs : List Char)
    (h1 : is_alphabetic c = true) (h2 : cs.all is_alphanumeric = true) :
    scan_tokens (Scanner.new (c :: cs)) =
      some (match Token.build (c :: cs) 1 with
        | Except.ok t => Except.ok ([t, Token.new TokenType.Eof [] 1],
            { source := c :: cs, start := 0, current := cs.length + 1, line := 1 })
        | Except.error e => Except.error e) ∧
    ((c :: cs) ∈ reserved_words ++ ("EOF".toList :: literal_variant_names) ↔
      ∃ t, Token.build (c :: cs) 1 = Except.ok t) ∧
    (∀ t, Token.build (c :: cs) 1 = Except.ok t → t.lexeme = c :: cs ∧ t.line = 1) ∧
    ((c :: cs) ∉ reserved_words ++ ("EOF".toList :: literal_variant_names) →
      scan_tokens (Scanner.new (c :: cs)) =
        some (Except.error (LoxError.InvalidToken 1 (c :: cs)))) := by
  refine ⟨identifier_scan c cs h1 h2, ?_, ?_, ?_⟩
  · rw [← alpha_spelling_mem c cs h1]
    constructor
    · intro hmem
      obtain ⟨t, ht, -, -⟩ := build_ok_of_mem _ 1 hmem
      exact ⟨t, ht⟩
    · rintro ⟨t, ht⟩
      exact build_mem_of_ok _ 1 t ht
  · intro t ht
    exact build_ok_fields ht
  · intro hmem
    rw [identifier_scan c cs h1 h2]
    rw [build_error_of_not_mem (c :: cs) 1
      (by rw [alpha_spelling_mem c cs h1]; exact hmem)]

/-- Witness for C1's amended theorem at the reserved word "or". -/
theorem c1_identifier_scan_amended_witness :
    ('o' :: "r".toList) ∈ reserved_words ++ ("EOF".toList :: literal_variant_names) ↔
    ∃ t, Token.build ('o' :: "r".toList) 1 = Except.ok t :=
  (c1_identifier_scan_amended 'o' ("r".toList) (by decide) (by decide)).2.1

/-- Claim C2, as stated, is false on the code: "Identifier" is none of the
thirty-six canonical fixed spellings, yet `Token.build` succeeds on it
(strum matches the bare variant name of attribute-less variants). -/
theorem c2_build_counterexample :
    Token.build ("Identifier".toList) 7 =
      Except.ok (Token.new TokenType.Identifier ("Identifier".toList) 7) ∧
    ("Identifier".toList) ∉ fixed_spellings := by
  decide

/-- Claim C2 (amended): `Token.build lexeme line` succeeds — with the token
carrying exactly that lexeme and line — exactly when the lexeme is one of the
thirty-six canonical fixed spellings or one of the bare variant names
"Identifier", "String", "Number"; for every other lexeme it fails with
`InvalidToken {line, token := lexeme}`.  (`Token.build` is a pure function of
its arguments by construction.) -/
theorem c2_build_spellings (lexeme : List Char) (line : Nat) :
    (lexeme ∈ fixed_spellings ++ literal_variant_names →
      ∃ t, Token.build lexeme line = Except.ok t ∧ t.lexeme = lexeme ∧ t.line = line) ∧
    (lexeme ∉ fixed_spellings ++ literal_variant_names →
      Token.build lexeme line = Except.error (LoxError.InvalidToken line lexeme)) :=
  ⟨build_ok_of_mem lexeme line, build_error_of_not_mem lexeme line⟩

/-- Witness for C2's amended theorem at the spelling "and". -/
theorem c2_build_spellings_witness :
    ∃ t, Token.build ("and".toList) 3 = Except.ok t ∧
      t.lexeme = "and".toList ∧ t.line = 3 :=
  (c2_build_spellings ("and".toList) 3).1 (by decide)

/-- Claim C3, as stated, is false on the code: scanning the three-byte source
quote–newline–quote produces a String token with line 2, although no newline
is consumed strictly before the token's first character (position 0), where
the claim's formula gives line 1.  `c3_start_line_check` is the claim's
formula evaluated over the span-instrumented scan. -/
theorem c3_line_counterexample :
    c3_start_line_check ['"', '\n', '"'] = false ∧
    scan_tokens (Scanner.new ['"', '\n', '"']) =
      some (Except.ok ([Token.new TokenType.String ['\n'] 2,
        Token.new TokenType.Eof [] 2],
        { source := ['"', '\n', '"'], start := 0, current := 3, line := 2 })) := by
  decide

/-- Claim C3 (amended): for every input, the line recorded on each token
produced by `scan_tokens` equals 1 plus the number of newline characters
consumed strictly before the position at which that token's scan finished
(for a string literal, past its closing quote; for every token that cannot
span newlines this coincides with the claim's original formula); in
particular scanning three newlines yields exactly one EOF token with
line 4 (see the witness). -/
theorem c3_line_numbers (src : List Char) (ts : List Token) (sf : Scanner)
    (h : scan_tokens (Scanner.new src) = some (Except.ok (ts, sf))) :
    ∃ tps, scan_tokens_spans (Scanner.new src) = some (Except.ok (tps, sf)) ∧
      ts = tps.map Prod.fst ∧
      ∀ p ∈ tps, p.1.line = 1 + countNL (substring src 0 p.2.2) := by
  have hproj := scan_tokens_spans_proj ((Scanner.new src).source.length + 1)
    (Scanner.new src)
  rw [scan_tokens] at h
  rw [hproj] at h
  cases hspans : scan_tokens_spans_go ((Scanner.new src).source.length + 1)
      (Scanner.new src) with
  | none => rw [hspans] at h; exact absurd h (by simp)
  | some r =>
    rw [hspans] at h
    cases r with
    | error e => exact absurd h (by simp [Except.map])
    | ok p =>
      obtain ⟨tps, sf2⟩ := p
      simp only [Option.map_some'] at h
      dsimp only [Except.map] at h
      simp only [Option.some.injEq, Except.ok.injEq, Prod.mk.injEq] at h
      obtain ⟨hts, hsf⟩ := h
      subst hsf
      refine ⟨tps, hspans, hts.symm, ?_⟩
      have hline := scan_tokens_spans_line ((Scanner.new src).source.length + 1)
        (Scanner.new src) tps sf2
        (by rw [line_inv]; simp [Scanner.new, substring_self, countNL])
        (by simp [Scanner.new])
        hspans
      exact hline

/-- Witness for C3's amended theorem on three newlines: one EOF token at
line 4. -/
theorem c3_line_numbers_witness :
    ∃ tps, scan_tokens_spans (Scanner.new ['\n', '\n', '\n']) =
        some (Except.ok (tps, Scanner.mk ['\n', '\n', '\n'] 2 3 4)) ∧
      [Token.new TokenType.Eof [] 4] = tps.map Prod.fst ∧
      ∀ p ∈ tps, p.1.line = 1 + countNL (substring ['\n', '\n', '\n'] 0 p.2.2) :=
  c3_line_numbers ['\n', '\n', '\n'] [Token.new TokenType.Eof [] 4]
    (Scanner.mk ['\n', '\n', '\n'] 2 3 4) (by decide)

/-- Claim C7, as stated, is false on the code: scanning the source "EOF"
produces two tokens of the end-of-input kind — the identifier path builds an
`Eof` token with lexeme "EOF" before the appended end marker — so the result
is not terminated by exactly one end-of-input token with an empty lexeme. -/
theorem c7_eof_counterexample :
    scan_tokens (Scanner.new ("EOF".toList)) =
      some (Except.ok ([Token.new TokenType.Eof ("EOF".toList) 1,
        Token.new TokenType.Eof [] 1],
        { source := "EOF".toList, start := 0, current := 3, line := 1 })) ∧
    ([Token.new TokenType.Eof ("EOF".toList) 1,
      Token.new TokenType.Eof [] 1].countP (fun t => t.type_ == TokenType.Eof)) = 2 := by
  decide

/-- Claim C7 (amended): every successful `scan_tokens` result is a nonempty
ordered sequence whose last token is an end-of-input token with an empty
lexeme carrying the line number at which scanning stopped, and every other
`Eof`-kind token in the sequence carries the sentinel lexeme "EOF" — that is,
an `Eof`-kind token can appear earlier only as the scan of the literal
identifier "EOF". -/
theorem c7_terminal_eof (s : Scanner) (ts : List Token) (sf : Scanner)
    (h : scan_tokens s = some (Except.ok (ts, sf))) :
    ts ≠ [] ∧ ts.getLast? = some (Token.new TokenType.Eof [] sf.line) ∧
    ∀ t ∈ ts.dropLast, t.type_ = TokenType.Eof → t.lexeme = "EOF".toList := by
  obtain ⟨-, -, h3, h4⟩ := scan_tokens_go_last (s.source.length + 1) s ts sf h
  exact ⟨h3, h4, scan_tokens_go_eof_lexemes (s.source.length + 1) s ts sf h⟩

/-- Witness for C7's amended theorem on the source "EOF": the result is
nonempty, ends with the empty-lexeme end marker, and its one earlier
`Eof`-kind token carries the lexeme "EOF". -/
theorem c7_terminal_eof_witness :
    ([Token.new TokenType.Eof ("EOF".toList) 1,
      Token.new TokenType.Eof [] 1] : List Token) ≠ [] ∧
    ([Token.new TokenType.Eof ("EOF".toList) 1,
      Token.new TokenType.Eof [] 1] : List Token).getLast? =
      some (Token.new TokenType.Eof [] 1) ∧
    (Token.new TokenType.Eof ("EOF".toList) 1).lexeme = "EOF".toList :=
  ⟨(c7_terminal_eof (Scanner.new ("EOF".toList))
      [Token.new TokenType.Eof ("EOF".toList) 1, Token.new TokenType.Eof [] 1]
      (Scanner.mk ("EOF".toList) 0 3 1) (by decide)).1,
   (c7_terminal_eof (Scanner.new ("EOF".toList))
      [Token.new TokenType.Eof ("EOF".toList) 1, Token.new TokenType.Eof [] 1]
      (Scanner.mk ("EOF".toList) 0 3 1) (by decide)).2.1,
   (c7_terminal_eof (Scanner.new ("EOF".toList))
      [Token.new TokenType.Eof ("EOF".toList) 1, Token.new TokenType.Eof [] 1]
      (Scanner.mk ("EOF".toList) 0 3 1) (by decide)).2.2
     (Token.new TokenType.Eof ("EOF".toList) 1) (by decide) rfl⟩

/-- Claim C8: every cursor state reachable from `Scanner.new src` by
iterations of the scanning loop satisfies `start ≤ current ≤ length source`
(with `0 ≤ start` trivially, as the fields are naturals), the source is never
modified, `line` equals 1 plus the newlines consumed, and across any further
loop iteration `line` is non-decreasing and increments exactly once per
newline character consumed (including newlines inside string literals). -/
theorem c8_cursor_invariant (src : List Char) (s : Scanner)
    (h : Reaches (Scanner.new src) s) :
    (s.start ≤ s.current ∧ s.current ≤ s.source.length ∧ s.source = src ∧
      line_inv s) ∧
    (∀ s', ScanStep s s' → s.line ≤ s'.line ∧
      s'.line = s.line + countNL (substring src s.current s'.current)) := by
  have hmain : s.start ≤ s.current ∧ s.current ≤ s.source.length ∧
      s.source = src ∧ line_inv s := by
    induction h with
    | refl =>
      refine ⟨le_refl 0, by simp [Scanner.new], rfl, ?_⟩
      rw [line_inv]
      simp [Scanner.new, substring_self, countNL]
    | @tail b c hreach hstep ih =>
      obtain ⟨hb1, hb2, hb3, hb4⟩ := ih
      obtain ⟨hbend, fuel, opt, hsc⟩ := hstep
      obtain ⟨g1, g2, g3, g4, g5, g6⟩ :=
        scan_token_spec fuel { b with start := b.current } opt c hbend hsc
      dsimp only at g1 g2 g3 g4 g5
      refine ⟨by omega, by rw [g1]; exact g4, by rw [g1]; exact hb3, ?_⟩
      exact scan_token_line_inv fuel { b with start := b.current } opt c hbend hsc hb4
  refine ⟨hmain, ?_⟩
  intro s' hstep
  obtain ⟨hbend, fuel, opt, hsc⟩ := hstep
  obtain ⟨g1, g2, g3, g4, g5, g6⟩ :=
    scan_token_spec fuel { s with start := s.current } opt s' hbend hsc
  dsimp only at g5
  rw [hmain.2.2.1] at g5
  exact ⟨by omega, g5⟩

/-- Witness for C8 at the initial state of a one-character source. -/
theorem c8_cursor_invariant_witness :
    (Scanner.new ['(']).start ≤ (Scanner.new ['(']).current ∧
    (Scanner.new ['(']).current ≤ (Scanner.new ['(']).source.length :=
  ⟨(c8_cursor_invariant ['('] (Scanner.new ['(']) Relation.ReflTransGen.refl).1.1,
   (c8_cursor_invariant ['('] (Scanner.new ['(']) Relation.ReflTransGen.refl).1.2.1⟩

/-- Claim C9: scanning terminates on every input — the fuel `length + 1` of
the embedding never runs out on any scanner state — because every successful
`scan_token` dispatch advances `current` by at least one without passing the
end of the source. -/
theorem c9_scan_terminates :
    (∀ s : Scanner, scan_tokens s ≠ none) ∧
    (∀ (fuel : Nat) (s : Scanner) (opt : Option Token) (s' : Scanner),
      is_at_end s = false → scan_token fuel s = some (Except.ok (opt, s')) →
      s.current < s'.current ∧ s'.current ≤ s.source.length) := by
  constructor
  · intro s
    exact scan_tokens_go_suff (s.source.length + 1) s (by omega)
  · intro fuel s opt s' hend h
    obtain ⟨-, -, g3, g4, -, -⟩ := scan_token_spec fuel s opt s' hend h
    exact ⟨g3, g4⟩

/-- Witness for C9's progress conjunct at a one-character source. -/
theorem c9_scan_terminates_witness :
    (Scanner.mk ['+'] 0 0 1).current < (Scanner.mk ['+'] 0 1 1).current ∧
    (Scanner.mk ['+'] 0 1 1).current ≤ (Scanner.mk ['+'] 0 0 1).source.length :=
  c9_scan_terminates.2 1 (Scanner.mk ['+'] 0 0 1)
    (some (Token.new TokenType.Plus ['+'] 1)) (Scanner.mk ['+'] 0 1 1)
    (by decide) (by decide)

/-- Claim C10: once `scan_tokens` has returned successfully, the cursor sits
at the end of the source and is never reset, so a further `scan_tokens` call
on the same scanner returns only the single end-of-input token with empty
lexeme and the line value reached by the first call (the same value stamped
on the first call's final token). -/
theorem c10_scanner_single_use (s : Scanner) (ts : List Token) (sf : Scanner)
    (h : scan_tokens s = some (Except.ok (ts, sf))) :
    scan_tokens sf = some (Except.ok ([Token.new TokenType.Eof [] sf.line], sf)) ∧
    ts.getLast? = some (Token.new TokenType.Eof [] sf.line) := by
  obtain ⟨h1, h2, h3, h4⟩ := scan_tokens_go_last (s.source.length + 1) s ts sf h
  refine ⟨?_, h4⟩
  rw [scan_tokens]
  simp only [scan_tokens_go]
  rw [if_pos h2]

/-- Witness for C10 after scanning a one-character source. -/
theorem c10_scanner_single_use_witness :
    scan_tokens (Scanner.mk ['+'] 0 1 1) =
      some (Except.ok ([Token.new TokenType.Eof [] (Scanner.mk ['+'] 0 1 1).line],
        Scanner.mk ['+'] 0 1 1)) ∧
    ([Token.new TokenType.Plus ['+'] 1, Token.new TokenType.Eof [] 1]).getLast? =
      some (Token.new TokenType.Eof [] (Scanner.mk ['+'] 0 1 1).line) :=
  c10_scanner_single_use (Scanner.mk ['+'] 0 0 1)
    [Token.new TokenType.Plus ['+'] 1, Token.new TokenType.Eof [] 1]
    (Scanner.mk ['+'] 0 1 1) (by decide)

/-- Claim C4: when the scanner consumes an opening double quote, a String
token is produced if and only if a closing double quote occurs before the end
of input; on success the token's lexeme is the literal's content with both
delimiting quotes stripped and its line is the line of the closing quote
(the entry line plus every newline consumed inside the literal); otherwise
the scan fails with `UnterminatedString` carrying the line at the point of
failure, every newline inside the unterminated literal having incremented
it. -/
theorem c4_string_literal (s : Scanner) (fuel : Nat) (k : Nat)
    (hk : k = ((s.source.drop (s.current + 1)).takeWhile (fun x => x != '"')).length)
    (hq : source_at s s.current = '"')
    (hend : is_at_end s = false)
    (hfuel : s.source.length - (s.current + 1) < fuel) :
    ((∃ j, s.current + 1 ≤ j ∧ j < s.source.length ∧ source_at s j = '"') ↔
      s.current + 1 + k < s.source.length) ∧
    (s.current + 1 + k < s.source.length →
      source_at s (s.current + 1 + k) = '"' ∧
      scan_token fuel { s with start := s.current } =
        some (Except.ok (some (Token.new TokenType.String
            (substring s.source (s.current + 1) (s.current + 1 + k))
            (s.line + countNL (substring s.source (s.current + 1) (s.current + 1 + k)))),
          { source := s.source, start := s.current, current := s.current + 1 + k + 1,
            line := s.line + countNL (substring s.source (s.current + 1) (s.current + 1 + k)) }))) ∧
    (¬(s.current + 1 + k < s.source.length) →
      scan_token fuel { s with start := s.current } =
        some (Except.error (LoxError.UnterminatedString
          (s.line + countNL (substring s.source (s.current + 1) s.source.length))))) := by
  have hlt : s.current < s.source.length := by
    simp only [is_at_end, decide_eq_false_iff_not, not_le] at hend
    exact hend
  simp only [source_at] at hq
  have hdispatch : scan_token fuel { s with start := s.current } =
      (parse_string fuel
        { source := s.source, start := s.current, current := s.current + 1,
          line := s.line }).map
        (fun r => r.map
          (fun p => (some (Token.new TokenType.String p.1 p.2.line), p.2))) := by
    simp only [scan_token, source_at]
    rw [hq]
    rw [if_neg (by decide), if_neg (by decide), if_neg (by decide),
      if_neg (by decide), if_neg (by decide), if_pos rfl]
  have hchar := parse_string_char fuel
    ⟨s.source, s.current, s.current + 1, s.line⟩ k
    (by dsimp only; exact hk) (by dsimp only; omega) (by dsimp only; omega)
  dsimp only at hchar
  have hlen := takeWhile_length_le (fun x => x != '"') (s.source.drop (s.current + 1))
  rw [List.length_drop] at hlen
  refine ⟨?_, ?_, ?_⟩
  · constructor
    · intro hex
      have hex' : ∃ x ∈ s.source.drop (s.current + 1), x = '"' := by
        rw [mem_drop_iff_exists_index]
        simpa only [source_at] using hex
      have hlt2 : ((s.source.drop (s.current + 1)).takeWhile
          (fun x => x != '"')).length < (s.source.drop (s.current + 1)).length := by
        rw [takeWhile_length_lt_iff]
        obtain ⟨x, hx, rfl⟩ := hex'
        exact ⟨_, hx, by simp⟩
      rw [List.length_drop] at hlt2
      omega
    · intro hklen
      have hlt2 : ((s.source.drop (s.current + 1)).takeWhile
          (fun x => x != '"')).length < (s.source.drop (s.current + 1)).length := by
        rw [List.length_drop]
        omega
      rw [takeWhile_length_lt_iff] at hlt2
      obtain ⟨x, hx, hpx⟩ := hlt2
      have hxq : x = '"' := by simpa using hpx
      subst hxq
      have hmem := (mem_drop_iff_exists_index s.source (s.current + 1) '"').mp
        ⟨'"', hx, rfl⟩
      simpa only [source_at] using hmem
  · intro hin
    constructor
    · have hstop := takeWhile_stop_getD (fun x => x != '"')
        (s.source.drop (s.current + 1)) (by rw [List.length_drop]; omega)
      rw [← hk] at hstop
      have hgd : (s.source.drop (s.current + 1)).getD k '\x00' =
          s.source.getD (s.current + 1 + k) '\x00' := by
        rw [List.getD_eq_getElem _ '\x00' (by rw [List.length_drop]; omega),
          List.getD_eq_getElem _ '\x00' (by omega)]
        rw [List.getElem_drop]
      rw [hgd] at hstop
      simp only [source_at]
      simpa using hstop
    · rw [hdispatch, hchar, if_pos hin]
      simp only [Option.map_some']
      dsimp only [Except.map]
  · intro hout
    rw [hdispatch, hchar, if_neg hout]
    simp only [Option.map_some']
    dsimp only [Except.map]

/-- Witness for C4 on the source quote–a–quote. -/
theorem c4_string_literal_witness :
    source_at (Scanner.mk ['"', 'a', '"'] 0 0 1) (0 + 1 + 1) = '"' ∧
    scan_token 4 { Scanner.mk ['"', 'a', '"'] 0 0 1 with start := 0 } =
      some (Except.ok (some (Token.new TokenType.String
          (substring ['"', 'a', '"'] (0 + 1) (0 + 1 + 1))
          (1 + countNL (substring ['"', 'a', '"'] (0 + 1) (0 + 1 + 1)))),
        { source := ['"', 'a', '"'], start := 0, current := 0 + 1 + 1 + 1,
          line := 1 + countNL (substring ['"', 'a', '"'] (0 + 1) (0 + 1 + 1)) })) :=
  (c4_string_literal (Scanner.mk ['"', 'a', '"'] 0 0 1) 4 1 (by decide) (by decide)
    (by decide) (by decide)).2.1 (by decide)

/-- Claim C5: when scanning a numeric literal entered on an ASCII digit, the
scanner consumes the run of digits and then a '.' with a fractional part only
when the character after the '.' is an ASCII digit; a trailing '.' not
followed by a digit is left unconsumed for the next scan iteration, except
that when the '.' is the very last character of the entire source the scan
fails with `UnterminatedFloat{line}`; on success the Number token's lexeme is
the exact source slice of the whole number.  (`scan_tokens "6."` fails with
`UnterminatedFloat` at line 1, last conjunct.) -/
theorem c5_number_literal (s : Scanner) (fuel : Nat) (d1 : Nat)
    (hd1 : d1 = ((s.source.drop (s.current + 1)).takeWhile is_digit).length)
    (hd : is_digit (source_at s s.current) = true)
    (hend : is_at_end s = false)
    (hfuel : s.source.length - (s.current + 1) < fuel) :
    (s.current + 1 + d1 < s.source.length →
      source_at s (s.current + 1 + d1) = '.' →
      s.source.length ≤ s.current + 1 + d1 + 1 →
      scan_token fuel { s with start := s.current } =
        some (Except.error (LoxError.UnterminatedFloat s.line))) ∧
    (∀ d2, d2 = ((s.source.drop (s.current + 1 + d1 + 1)).takeWhile is_digit).length →
      s.current + 1 + d1 < s.source.length →
      source_at s (s.current + 1 + d1) = '.' →
      s.current + 1 + d1 + 1 < s.source.length →
      is_digit (source_at s (s.current + 1 + d1 + 1)) = true →
      scan_token fuel { s with start := s.current } =
        some (Except.ok (some (Token.new TokenType.Number
            (substring s.source s.current (s.current + 1 + d1 + 1 + d2)) s.line),
          { source := s.source, start := s.current,
            current := s.current + 1 + d1 + 1 + d2, line := s.line }))) ∧
    (s.current + 1 + d1 < s.source.length →
      source_at s (s.current + 1 + d1) = '.' →
      s.current + 1 + d1 + 1 < s.source.length →
      is_digit (source_at s (s.current + 1 + d1 + 1)) = false →
      scan_token fuel { s with start := s.current } =
        some (Except.ok (some (Token.new TokenType.Number
            (substring s.source s.current (s.current + 1 + d1)) s.line),
          { source := s.source, start := s.current,
            current := s.current + 1 + d1, line := s.line }))) ∧
    ((s.source.length ≤ s.current + 1 + d1 ∨
        source_at s (s.current + 1 + d1) ≠ '.') →
      scan_token fuel { s with start := s.current } =
        some (Except.ok (some (Token.new TokenType.Number
            (substring s.source s.current (s.current + 1 + d1)) s.line),
          { source := s.source, start := s.current,
            current := s.current + 1 + d1, line := s.line }))) ∧
    scan_tokens (Scanner.new ("6.".toList)) =
      some (Except.error (LoxError.UnterminatedFloat 1)) := by
  have hlt : s.current < s.source.length := by
    simp only [is_at_end, decide_eq_false_iff_not, not_le] at hend
    exact hend
  simp only [source_at] at hd
  have hq_le : s.current + 1 + d1 ≤ s.source.length := by
    have := takeWhile_length_le is_digit (s.source.drop (s.current + 1))
    rw [List.length_drop] at this
    omega
  have hdispatch : scan_token fuel { s with start := s.current } =
      (parse_number fuel
        { source := s.source, start := s.current, current := s.current + 1,
          line := s.line }).map
        (fun r => r.map
          (fun p => (some (Token.new TokenType.Number p.1 p.2.line), p.2))) := by
    simp only [scan_token, source_at]
    rw [if_neg (digit_not_punct _ hd), if_neg (digit_not_op _ hd),
      if_neg (digit_not_slash _ hd), if_neg (digit_not_ws _ hd),
      if_neg (digit_not_nl _ hd), if_neg (digit_not_quote _ hd),
      hd, if_pos rfl]
  have hrun1 := skip_digits_run fuel
    ⟨s.source, s.current, s.current + 1, s.line⟩ d1
    (by dsimp only; exact hd1) (by dsimp only; omega) (by dsimp only; omega)
  dsimp only at hrun1
  have hnum : parse_number fuel
      { source := s.source, start := s.current, current := s.current + 1,
        line := s.line } =
      (if peek ⟨s.source, s.current, s.current + 1 + d1, s.line⟩ = '.' then
        match peek_next ⟨s.source, s.current, s.current + 1 + d1, s.line⟩ with
        | Except.error e => some (Except.error e)
        | Except.ok c2 =>
          if is_digit c2 = true then
            match skip_digits fuel
                ⟨s.source, s.current, s.current + 1 + d1 + 1, s.line⟩ with
            | none => none
            | some s2 => some (Except.ok (substring s2.source s2.start s2.current, s2))
          else some (Except.ok (substring s.source s.current (s.current + 1 + d1),
            ⟨s.source, s.current, s.current + 1 + d1, s.line⟩))
      else some (Except.ok (substring s.source s.current (s.current + 1 + d1),
        ⟨s.source, s.current, s.current + 1 + d1, s.line⟩))) := by
    rw [parse_number, hrun1]
  refine ⟨?_, ?_, ?_, ?_, by decide⟩
  · intro h1 h2 h3
    simp only [source_at] at h2
    rw [hdispatch, hnum]
    rw [if_pos (show peek ⟨s.source, s.current, s.current + 1 + d1, s.line⟩ = '.' by
      rw [peek_of_lt h1]
      exact h2)]
    rw [peek_next, if_pos (by dsimp only; omega)]
    rfl
  · intro d2 hd2 h1 h2 h3 h4
    simp only [source_at] at h2 h4
    rw [hdispatch, hnum]
    rw [if_pos (show peek ⟨s.source, s.current, s.current + 1 + d1, s.line⟩ = '.' by
      rw [peek_of_lt h1]
      exact h2)]
    rw [peek_next, if_neg (by dsimp only; omega)]
    dsimp only
    simp only [source_at]
    simp only [h4]
    have hrun2 := skip_digits_run fuel
      ⟨s.source, s.current, s.current + 1 + d1 + 1, s.line⟩ d2
      (by dsimp only; exact hd2) (by dsimp only; omega) (by dsimp only; omega)
    dsimp only at hrun2
    rw [hrun2]
    rfl
  · intro h1 h2 h3 h4
    simp only [source_at] at h2 h4
    rw [hdispatch, hnum]
    rw [if_pos (show peek ⟨s.source, s.current, s.current + 1 + d1, s.line⟩ = '.' by
      rw [peek_of_lt h1]
      exact h2)]
    rw [peek_next, if_neg (by dsimp only; omega)]
    dsimp only
    simp only [source_at]
    simp only [h4]
    simp only [Bool.false_eq_true, if_false]
    rfl
  · intro hor
    simp only [source_at] at hor
    rw [hdispatch, hnum]
    rw [if_neg (show ¬(peek ⟨s.source, s.current, s.current + 1 + d1, s.line⟩ = '.') by
      rcases Nat.lt_or_ge (s.current + 1 + d1) s.source.length with hql | hql
      · rw [@peek_of_lt ⟨s.source, s.current, s.current + 1 + d1, s.line⟩ hql]
        rcases hor with h | h
        · omega
        · exact h
      · rw [@peek_of_ge ⟨s.source, s.current, s.current + 1 + d1, s.line⟩ hql]
        decide)]
    rfl

/-- Witness for C5 on the source "6.9": the fractional part is consumed and
the lexeme is the exact slice. -/
theorem c5_number_literal_witness :
    scan_token 4 { Scanner.mk ['6', '.', '9'] 0 0 1 with start := 0 } =
      some (Except.ok (some (Token.new TokenType.Number
          (substring ['6', '.', '9'] 0 (0 + 1 + 0 + 1 + 1)) 1),
        { source := ['6', '.', '9'], start := 0,
          current := 0 + 1 + 0 + 1 + 1, line := 1 })) :=
  (c5_number_literal (Scanner.mk ['6', '.', '9'] 0 0 1) 4 0 (by decide) (by decide)
    (by decide) (by decide)).2.1 1 (by decide) (by decide) (by decide) (by decide)
    (by decide)

/-- Claim C6: on consuming one of '!', '=', '<', '>', the scanner emits the
two-character operator token exactly when the immediately following character
is '=' (which it also consumes), and the one-character token otherwise
(including at end of input); '==' is never tokenized as '=' followed by '=',
and scanning ">=<===!=" yields exactly GreaterEqual, LessEqual, EqualEqual,
BangEqual, then EOF. -/
theorem c6_operator_munch (s : Scanner) (c : Char)
    (hc : source_at s s.current = c)
    (hop : c = '!' ∨ c = '=' ∨ c = '<' ∨ c = '>')
    (hend : is_at_end s = false) :
    (s.current + 1 < s.source.length → source_at s (s.current + 1) = '=' →
      ∃ t, Token.build [c, '='] s.line = Except.ok t ∧
        ∀ fuel, scan_token fuel { s with start := s.current } =
          some (Except.ok (some t,
            { source := s.source, start := s.current, current := s.current + 1 + 1,
              line := s.line }))) ∧
    (¬(s.current + 1 < s.source.length ∧ source_at s (s.current + 1) = '=') →
      ∃ t, Token.build [c] s.line = Except.ok t ∧
        ∀ fuel, scan_token fuel { s with start := s.current } =
          some (Except.ok (some t,
            { source := s.source, start := s.current, current := s.current + 1,
              line := s.line }))) ∧
    scan_tokens (Scanner.new (">=<===!=".toList)) =
      some (Except.ok ([Token.new TokenType.GreaterEqual (">=".toList) 1,
        Token.new TokenType.LessEqual ("<=".toList) 1,
        Token.new TokenType.EqualEqual ("==".toList) 1,
        Token.new TokenType.BangEqual ("!=".toList) 1,
        Token.new TokenType.Eof [] 1],
        { source := ">=<===!=".toList, start := 6, current := 8, line := 1 })) := by
  simp only [source_at] at hc
  refine ⟨?_, ?_, by decide⟩
  · intro hl heq
    simp only [source_at] at heq
    have hcond : ¬(is_at_end
        (⟨s.source, s.current, s.current + 1, s.line⟩ : Scanner) = true ∨
        source_at (⟨s.source, s.current, s.current + 1, s.line⟩ : Scanner)
          (s.current + 1) ≠ '=') := by
      rw [not_or]
      constructor
      · simp only [is_at_end, decide_eq_true_eq]
        omega
      · rw [not_not]
        simp only [source_at]
        exact heq
    rcases hop with rfl | rfl | rfl | rfl
    · refine ⟨_, rfl, fun fuel => ?_⟩
      simp only [scan_token, source_at]
      rw [hc]
      rw [if_neg (by decide), if_pos (by decide)]
      simp only [pop_if_exp_is_next]
      rw [if_neg hcond]
      rfl
    · refine ⟨_, rfl, fun fuel => ?_⟩
      simp only [scan_token, source_at]
      rw [hc]
      rw [if_neg (by decide), if_pos (by decide)]
      simp only [pop_if_exp_is_next]
      rw [if_neg hcond]
      rfl
    · refine ⟨_, rfl, fun fuel => ?_⟩
      simp only [scan_token, source_at]
      rw [hc]
      rw [if_neg (by decide), if_pos (by decide)]
      simp only [pop_if_exp_is_next]
      rw [if_neg hcond]
      rfl
    · refine ⟨_, rfl, fun fuel => ?_⟩
      simp only [scan_token, source_at]
      rw [hc]
      rw [if_neg (by decide), if_pos (by decide)]
      simp only [pop_if_exp_is_next]
      rw [if_neg hcond]
      rfl
  · intro hn
    have hcond : is_at_end
        (⟨s.source, s.current, s.current + 1, s.line⟩ : Scanner) = true ∨
        source_at (⟨s.source, s.current, s.current + 1, s.line⟩ : Scanner)
          (s.current + 1) ≠ '=' := by
      by_cases hl : s.current + 1 < s.source.length
      · right
        simp only [source_at]
        intro hcontra
        exact hn ⟨hl, by simp only [source_at]; exact hcontra⟩
      · left
        simp only [is_at_end, decide_eq_true_eq]
        omega
    rcases hop with rfl | rfl | rfl | rfl
    · refine ⟨_, rfl, fun fuel => ?_⟩
      simp only [scan_token, source_at]
      rw [hc]
      rw [if_neg (by decide), if_pos (by decide)]
      simp only [pop_if_exp_is_next]
      rw [if_pos hcond]
      rfl
    · refine ⟨_, rfl, fun fuel => ?_⟩
      simp only [scan_token, source_at]
      rw [hc]
      rw [if_neg (by decide), if_pos (by decide)]
      simp only [pop_if_exp_is_next]
      rw [if_pos hcond]
      rfl
    · refine ⟨_, rfl, fun fuel => ?_⟩
      simp only [scan_token, source_at]
      rw [hc]
      rw [if_neg (by decide), if_pos (by decide)]
      simp only [pop_if_exp_is_next]
      rw [if_pos hcond]
      rfl
    · refine ⟨_, rfl, fun fuel => ?_⟩
      simp only [scan_token, source_at]
      rw [hc]
      rw [if_neg (by decide), if_pos (by decide)]
      simp only [pop_if_exp_is_next]
      rw [if_pos hcond]
      rfl

/-- Witness for C6 on the source "<=": maximal munch gives LessEqual. -/
theorem c6_operator_munch_witness :
    ∃ t, Token.build ['<', '='] 1 = Except.ok t ∧
      ∀ fuel, scan_token fuel { Scanner.mk ['<', '='] 0 0 1 with start := 0 } =
        some (Except.ok (some t,
          { source := ['<', '='], start := 0, current := 0 + 1 + 1, line := 1 })) :=
  (c6_operator_munch (Scanner.mk ['<', '='] 0 0 1) '<' (by decide) (by decide)
    (by decide)).1 (by decide) (by decide)

end Rlox
